import Mathlib

/-!
Verification development for the QE build-validation campaign orchestrator
(`scripts/validate_build.py`).  The Python orchestrator is shallowly embedded:
pure helpers become Lean functions, the effectful step executor is modelled by
oracles supplying each external invocation's exit status, elapsed time and
resulting log text, and the record-accumulating control flow becomes functions
producing explicit lists of outcome records.  Machine floats are modelled by
rationals; IEEE infinities produced by the band-gap sentinels are modelled by
an explicit extended-rational type.
-/

namespace QEValidate

/-- Outcome status recorded for a case.  `add_case` in the source is only ever
called with the string literals "PASS" or "FAIL", so a two-valued enum is a
faithful embedding of the status field. -/
inductive Status where
  | PASS : Status
  | FAIL : Status
deriving DecidableEq

/-- `CaseResult` dataclass: case name, status, duration in seconds, note. -/
structure CaseRec where
  case : String
  status : Status
  dur : ℚ
  note : String
deriving DecidableEq

/-- `ScfRun` dataclass: label, MPI ranks, total energy (Ry), Fermi level (eV),
duration. -/
structure ScfRun where
  label : String
  ranks : ℕ
  total_energy_ry : ℚ
  fermi_ev : ℚ
  duration_s : ℚ
deriving DecidableEq

/-- Whether `needle` is an initial run of `hay`, over character lists. -/
def charsLead : List Char → List Char → Bool
  | [], _ => true
  | _ :: _, [] => false
  | a :: as, b :: bs => a == b && charsLead as bs

/-- Whether `needle` occurs contiguously inside `hay`, over character lists. -/
def charsContain : List Char → List Char → Bool
  | [], needle => needle.isEmpty
  | hd :: tl, needle => charsLead needle (hd :: tl) || charsContain tl needle

/-- Python `needle in hay` substring test. -/
def strContains (hay needle : String) : Bool :=
  charsContain hay.data needle.data

/-- `has_job_done`: the completion marker "JOB DONE." occurs in the log. -/
def hasJobDone (text : String) : Bool :=
  strContains text "JOB DONE."

/-- `has_epw_interpolation_marker`: the EPW marker occurs in the log. -/
def hasEpwInterpolationMarker (text : String) : Bool :=
  strContains text "Electron-Phonon interpolation"

/-- `has_mpi_socket_error`: any of the four fixed transport-failure markers
occurs in the captured log. -/
def has_mpi_socket_error (text : String) : Bool :=
  strContains text "PRTE ERROR" ||
  strContains text "No sockets were able to be opened" ||
  strContains text "No network interfaces were found" ||
  strContains text "bind() failed for port"

/-- Extended rationals modelling the IEEE floats produced inside
`compute_gaps`: parsed band energies are finite, and the `np.where`
classification introduces the `-math.inf` / `math.inf` sentinels. -/
inductive XRat where
  | ninf : XRat
  | fin : ℚ → XRat
  | pinf : XRat
deriving DecidableEq

/-- IEEE maximum over the extended values (`np.max` reduction). -/
def xmax : XRat → XRat → XRat
  | .ninf, b => b
  | a, .ninf => a
  | .pinf, _ => .pinf
  | _, .pinf => .pinf
  | .fin a, .fin b => .fin (max a b)

/-- IEEE minimum over the extended values (`np.min` reduction). -/
def xmin : XRat → XRat → XRat
  | .pinf, b => b
  | a, .pinf => a
  | .ninf, _ => .ninf
  | _, .ninf => .ninf
  | .fin a, .fin b => .fin (min a b)

/-- IEEE subtraction over the extended values, as used for
`conduction_min - valence_max`.  In `compute_gaps` the left operand is never
`ninf` and the right operand is never `pinf` (conduction entries are finite or
`+inf`, valence entries finite or `-inf`), so the two uniform-infinite cases
(IEEE `inf - inf = nan`) are unreachable there; they are mapped to infinities
of the matching sign. -/
def xsub : XRat → XRat → XRat
  | .fin a, .fin b => .fin (a - b)
  | .pinf, .fin _ => .pinf
  | .pinf, .ninf => .pinf
  | .fin _, .ninf => .pinf
  | .ninf, .fin _ => .ninf
  | .ninf, .pinf => .ninf
  | .fin _, .pinf => .ninf
  | .pinf, .pinf => .pinf
  | .ninf, .ninf => .ninf

/-- Order on the extended values (comparisons against `nan` never occur since
no `nan` is ever constructed). -/
def XLe : XRat → XRat → Prop
  | .ninf, _ => True
  | _, .pinf => True
  | .pinf, _ => False
  | .fin a, .fin b => a ≤ b
  | .fin _, .ninf => False

/-- `parse_bands` block accumulation: a blank line (no tokens) closes the
current band block if nonempty; a line with fewer than two tokens is skipped;
otherwise the first two tokens are appended as a (k, energy) pair. -/
def splitBandsStep (acc : List (List (ℚ × ℚ)) × List (ℚ × ℚ)) (line : List ℚ) :
    List (List (ℚ × ℚ)) × List (ℚ × ℚ) :=
  match line with
  | [] => if acc.2.isEmpty then acc else (acc.1 ++ [acc.2], [])
  | [_] => acc
  | a :: b :: _ => (acc.1, acc.2 ++ [(a, b)])

/-- The band blocks of a token-line sequence, flushing the trailing block. -/
def splitBands (lines : List (List ℚ)) : List (List (ℚ × ℚ)) :=
  let acc := lines.foldl splitBandsStep ([], [])
  if acc.2.isEmpty then acc.1 else acc.1 ++ [acc.2]

/-- `parse_bands`: fails when no band was parsed or when the bands do not all
share the k-sampling length of the first band; otherwise returns the k-path
(first coordinates of the first band) and the energies, one row per band.
Input lines are modelled as lists of numeric tokens, a blank line being an
empty token list. -/
def parse_bands (lines : List (List ℚ)) :
    Except String (List ℚ × List (List ℚ)) :=
  match splitBands lines with
  | [] => .error "No bands parsed"
  | b0 :: rest =>
    if (b0 :: rest).all (fun b => b.length == b0.length) then
      .ok (b0.map Prod.fst, (b0 :: rest).map (List.map Prod.snd))
    else .error "Inconsistent band lengths"

/-- Valence classification: `np.where(energies <= fermi, energies, -inf)`. -/
def valMap (fermi e : ℚ) : XRat := if e ≤ fermi then .fin e else .ninf

/-- Conduction classification: `np.where(energies >= fermi, energies, inf)`. -/
def conMap (fermi e : ℚ) : XRat := if fermi ≤ e then .fin e else .pinf

/-- Column `i` of a row-major matrix (rows all have length > `i` at use
sites, so the default is irrelevant there). -/
def colGet (m : List (List XRat)) (i : ℕ) (d : XRat) : List XRat :=
  m.map (fun row => row.getD i d)

/-- `matrix.max(axis=0)` over `nk` columns. -/
def axisMax (m : List (List XRat)) (nk : ℕ) : List XRat :=
  (List.range nk).map (fun i => (colGet m i .ninf).foldl xmax .ninf)

/-- `matrix.min(axis=0)` over `nk` columns. -/
def axisMin (m : List (List XRat)) (nk : ℕ) : List XRat :=
  (List.range nk).map (fun i => (colGet m i .pinf).foldl xmin .pinf)

/-- Body of `compute_gaps` after parsing: classify, reduce per column, and
form the indirect and direct gaps. -/
def gapsOf (energies : List (List ℚ)) (fermi : ℚ) : XRat × XRat :=
  let nk := (energies.headD []).length
  let valence := energies.map (List.map (valMap fermi))
  let conduction := energies.map (List.map (conMap fermi))
  let valence_max_by_k := axisMax valence nk
  let conduction_min_by_k := axisMin conduction nk
  let vmax := valence_max_by_k.foldl xmax .ninf
  let cmin := conduction_min_by_k.foldl xmin .pinf
  (xsub cmin vmax,
    (List.zipWith xsub conduction_min_by_k valence_max_by_k).foldl xmin .pinf)

/-- `compute_gaps`: parse the band table, then compute (indirect, direct). -/
def compute_gaps (lines : List (List ℚ)) (fermi : ℚ) :
    Except String (XRat × XRat) :=
  (parse_bands lines).map (fun pb => gapsOf pb.2 fermi)

/-- Modelled from the spec: per-k valence maximum, written independently of
the matrix reductions (per-band classification folded with `foldr`). -/
def specValMaxAt (es : List (List ℚ)) (fermi : ℚ) (i : ℕ) : XRat :=
  (es.map (fun band => valMap fermi (band.getD i 0))).foldr xmax .ninf

/-- Modelled from the spec: per-k conduction minimum. -/
def specConMinAt (es : List (List ℚ)) (fermi : ℚ) (i : ℕ) : XRat :=
  (es.map (fun band => conMap fermi (band.getD i 0))).foldr xmin .pinf

/-- Modelled from the spec: indirect gap = (minimum over k of the per-k
conduction minimum) − (maximum over k of the per-k valence maximum). -/
def specIndirectGap (es : List (List ℚ)) (fermi : ℚ) : XRat :=
  xsub
    (((List.range (es.headD []).length).map (specConMinAt es fermi)).foldr
      xmin .pinf)
    (((List.range (es.headD []).length).map (specValMaxAt es fermi)).foldr
      xmax .ninf)

/-- Modelled from the spec: direct gap = minimum over k of (conduction
minimum at k − valence maximum at k). -/
def specDirectGap (es : List (List ℚ)) (fermi : ℚ) : XRat :=
  ((List.range (es.headD []).length).map
    (fun i => xsub (specConMinAt es fermi i) (specValMaxAt es fermi i))).foldr
    xmin .pinf

/-- The spec's synthetic two-band, two-k-point fixture, as token lines:
valence energies −1.0 and −0.5, a blank separator, conduction energies 1.0
and 1.5. -/
def gapFixtureLines : List (List ℚ) :=
  [[0, -1], [1, -1/2], [], [0, 1], [1, 3/2]]

/-- The parsed k-path of the fixture. -/
def gapFixtureKp : List ℚ := [0, 1]

/-- The parsed energy rows of the fixture. -/
def gapFixtureEs : List (List ℚ) := [[-1, -1/2], [1, 3/2]]

/-- A band table whose second band has fewer k-points than the first. -/
def gapBadLines : List (List ℚ) := [[0, -1], [1, -1/2], [], [0, 1]]

theorem xmax_comm (a b : XRat) : xmax a b = xmax b a := by
  cases a <;> cases b <;> simp [xmax, max_comm]

theorem xmax_assoc (a b c : XRat) : xmax (xmax a b) c = xmax a (xmax b c) := by
  cases a <;> cases b <;> cases c <;> simp [xmax, max_assoc]

theorem xmin_comm (a b : XRat) : xmin a b = xmin b a := by
  cases a <;> cases b <;> simp [xmin, min_comm]

theorem xmin_assoc (a b c : XRat) : xmin (xmin a b) c = xmin a (xmin b c) := by
  cases a <;> cases b <;> cases c <;> simp [xmin, min_assoc]

instance : Std.Commutative xmax := ⟨xmax_comm⟩

instance : Std.Associative xmax := ⟨xmax_assoc⟩

instance : Std.Commutative xmin := ⟨xmin_comm⟩

instance : Std.Associative xmin := ⟨xmin_assoc⟩

theorem xle_refl (a : XRat) : XLe a a := by
  cases a <;> simp [XLe]

theorem xle_trans {a b c : XRat} (h1 : XLe a b) (h2 : XLe b c) : XLe a c := by
  cases a <;> cases b <;> cases c <;> simp_all [XLe] <;> linarith

theorem xle_antisymm {a b : XRat} (h1 : XLe a b) (h2 : XLe b a) : a = b := by
  cases a <;> cases b <;> simp_all [XLe] <;> linarith

theorem xle_xmax_left (a b : XRat) : XLe a (xmax a b) := by
  cases a <;> cases b <;> simp [XLe, xmax, le_max_left]

theorem xle_xmax_right (a b : XRat) : XLe b (xmax a b) := by
  cases a <;> cases b <;> simp [XLe, xmax, le_max_right]

theorem xmax_le {a b c : XRat} (h1 : XLe a c) (h2 : XLe b c) : XLe (xmax a b) c := by
  cases a <;> cases b <;> cases c <;> simp_all [XLe, xmax]

theorem xmin_le_left (a b : XRat) : XLe (xmin a b) a := by
  cases a <;> cases b <;> simp [XLe, xmin, min_le_left]

theorem xmin_le_right (a b : XRat) : XLe (xmin a b) b := by
  cases a <;> cases b <;> simp [XLe, xmin, min_le_right]

theorem le_xmin {a b c : XRat} (h1 : XLe c a) (h2 : XLe c b) : XLe c (xmin a b) := by
  cases a <;> cases b <;> cases c <;> simp_all [XLe, xmin]

theorem foldl_xmax_le {l : List XRat} {a c : XRat} (ha : XLe a c)
    (hl : ∀ x ∈ l, XLe x c) : XLe (l.foldl xmax a) c := by
  induction l generalizing a with
  | nil => exact ha
  | cons x xs ih =>
    exact ih (xmax_le ha (hl x (List.mem_cons_self x xs)))
      (fun y hy => hl y (List.mem_cons_of_mem x hy))

theorem xle_foldl_xmax_init (l : List XRat) (a : XRat) :
    XLe a (l.foldl xmax a) := by
  induction l generalizing a with
  | nil => exact xle_refl a
  | cons x xs ih => exact xle_trans (xle_xmax_left a x) (ih (xmax a x))

theorem xle_foldl_xmax_mem {l : List XRat} {x : XRat} (hx : x ∈ l) (a : XRat) :
    XLe x (l.foldl xmax a) := by
  induction l generalizing a with
  | nil => cases hx
  | cons y ys ih =>
    rcases List.mem_cons.mp hx with h | h
    · subst h
      exact xle_trans (xle_xmax_right a x) (xle_foldl_xmax_init ys (xmax a x))
    · exact ih h (xmax a y)

theorem le_foldl_xmin {l : List XRat} {a c : XRat} (ha : XLe c a)
    (hl : ∀ x ∈ l, XLe c x) : XLe c (l.foldl xmin a) := by
  induction l generalizing a with
  | nil => exact ha
  | cons x xs ih =>
    exact ih (le_xmin ha (hl x (List.mem_cons_self x xs)))
      (fun y hy => hl y (List.mem_cons_of_mem x hy))

theorem foldl_xmin_le_init (l : List XRat) (a : XRat) :
    XLe (l.foldl xmin a) a := by
  induction l generalizing a with
  | nil => exact xle_refl a
  | cons x xs ih => exact xle_trans (ih (xmin a x)) (xmin_le_left a x)

theorem foldl_xmin_le_mem {l : List XRat} {x : XRat} (hx : x ∈ l) (a : XRat) :
    XLe (l.foldl xmin a) x := by
  induction l generalizing a with
  | nil => cases hx
  | cons y ys ih =>
    rcases List.mem_cons.mp hx with h | h
    · subst h
      exact xle_trans (foldl_xmin_le_init ys (xmin a x)) (xmin_le_right a x)
    · exact ih h (xmin a y)

theorem foldl_xmin_ne_ninf {l : List XRat} {a : XRat}
    (hl : ∀ x ∈ l, x ≠ XRat.ninf) (ha : a ≠ XRat.ninf) :
    l.foldl xmin a ≠ XRat.ninf := by
  induction l generalizing a with
  | nil => exact ha
  | cons x xs ih =>
    refine ih (fun y hy => hl y (List.mem_cons_of_mem x hy)) ?_
    have hx := hl x (List.mem_cons_self x xs)
    cases a <;> cases x <;> simp_all [xmin]

theorem foldl_xmax_ne_pinf {l : List XRat} {a : XRat}
    (hl : ∀ x ∈ l, x ≠ XRat.pinf) (ha : a ≠ XRat.pinf) :
    l.foldl xmax a ≠ XRat.pinf := by
  induction l generalizing a with
  | nil => exact ha
  | cons x xs ih =>
    refine ih (fun y hy => hl y (List.mem_cons_of_mem x hy)) ?_
    have hx := hl x (List.mem_cons_self x xs)
    cases a <;> cases x <;> simp_all [xmax]

theorem xle_fin_cases {x : XRat} {c : ℚ} (h : XLe x (XRat.fin c)) :
    x = XRat.ninf ∨ ∃ q ≤ c, x = XRat.fin q := by
  cases x with
  | ninf => exact Or.inl rfl
  | fin q => exact Or.inr ⟨q, h, rfl⟩
  | pinf => cases h

theorem xsub_ne_ninf {x y : XRat} (hx : x ≠ XRat.ninf) (hy : y ≠ XRat.pinf) :
    xsub x y ≠ XRat.ninf := by
  cases x <;> cases y <;> simp_all [xsub]

theorem parse_bands_ok_shape {lines : List (List ℚ)} {kp : List ℚ}
    {es : List (List ℚ)} (h : parse_bands lines = Except.ok (kp, es)) :
    es ≠ [] ∧ ∀ b ∈ es, b.length = (es.headD []).length := by
  unfold parse_bands at h
  split at h
  · cases h
  · rename_i b0 rest
    split at h
    · rename_i hall
      rw [Except.ok.injEq, Prod.mk.injEq] at h
      obtain ⟨-, hes⟩ := h
      subst hes
      refine ⟨by simp, ?_⟩
      intro b hb
      rw [List.mem_map] at hb
      obtain ⟨band, hband, rfl⟩ := hb
      have hlen := (List.all_eq_true.mp hall) band hband
      simp only [beq_iff_eq] at hlen
      simp [hlen]
    · cases h

theorem classified_colGet {es : List (List ℚ)} {nk : ℕ}
    (hlen : ∀ b ∈ es, b.length = nk) (f : ℚ → XRat) {i : ℕ} (hi : i < nk)
    (d : XRat) :
    colGet (es.map (List.map f)) i d =
      es.map (fun band => f (band.getD i 0)) := by
  unfold colGet
  rw [List.map_map]
  apply List.map_congr_left
  intro band hband
  have hb : i < band.length := by rw [hlen band hband]; exact hi
  simp [Function.comp, List.getD_eq_getElem?_getD, List.getElem?_map,
    List.getElem?_eq_getElem hb]

theorem gapsOf_eq_spec {es : List (List ℚ)}
    (hlen : ∀ b ∈ es, b.length = (es.headD []).length) (fermi : ℚ) :
    gapsOf es fermi = (specIndirectGap es fermi, specDirectGap es fermi) := by
  unfold gapsOf specIndirectGap specDirectGap
  have hvk : axisMax (es.map (List.map (valMap fermi))) (es.headD []).length
      = (List.range (es.headD []).length).map (specValMaxAt es fermi) := by
    unfold axisMax
    apply List.map_congr_left
    intro i hi
    rw [classified_colGet hlen (valMap fermi) (List.mem_range.mp hi) _]
    rw [specValMaxAt, List.foldl_eq_foldr]
  have hck : axisMin (es.map (List.map (conMap fermi))) (es.headD []).length
      = (List.range (es.headD []).length).map (specConMinAt es fermi) := by
    unfold axisMin
    apply List.map_congr_left
    intro i hi
    rw [classified_colGet hlen (conMap fermi) (List.mem_range.mp hi) _]
    rw [specConMinAt, List.foldl_eq_foldr]
  simp only [hvk, hck]
  rw [List.zipWith_map_left, List.zipWith_map_right, List.zipWith_same]
  rw [List.foldl_eq_foldr, List.foldl_eq_foldr, List.foldl_eq_foldr]

theorem parse_bands_fixture :
    parse_bands gapFixtureLines = Except.ok (gapFixtureKp, gapFixtureEs) := by
  norm_num [parse_bands, splitBands, splitBandsStep, gapFixtureLines,
    gapFixtureKp, gapFixtureEs]

theorem compute_gaps_fixture :
    compute_gaps gapFixtureLines 0 = Except.ok (XRat.fin (3/2), XRat.fin 2) := by
  rw [compute_gaps, parse_bands_fixture]
  norm_num [Except.map, gapsOf, axisMax, axisMin, colGet, valMap, conMap,
    xmax, xmin, xsub, gapFixtureEs, List.range_succ]

theorem parse_bands_bad :
    parse_bands gapBadLines = Except.error "Inconsistent band lengths" := by
  norm_num [parse_bands, splitBands, splitBandsStep, gapBadLines]

/-- C5: for every parsed band table (all bands sharing the k-sampling
length), `compute_gaps` computes the indirect gap as (minimum over k of the
per-k conduction minimum) minus (maximum over k of the per-k valence
maximum) and the direct gap as the minimum over k of the per-k difference,
classifying energies ≤ Fermi as valence and ≥ Fermi as conduction with
∓infinity sentinels; the two-band two-k fixture at Fermi 0 yields indirect
1.5 and direct 2.0, and a table with inconsistent band lengths is rejected. -/
theorem C5_compute_gaps_spec :
    (∀ (lines : List (List ℚ)) (fermi : ℚ) (kp : List ℚ) (es : List (List ℚ)),
      parse_bands lines = Except.ok (kp, es) →
      compute_gaps lines fermi =
        Except.ok (specIndirectGap es fermi, specDirectGap es fermi))
    ∧ compute_gaps gapFixtureLines 0 = Except.ok (XRat.fin (3/2), XRat.fin 2)
    ∧ parse_bands gapBadLines = Except.error "Inconsistent band lengths" := by
  refine ⟨?_, compute_gaps_fixture, parse_bands_bad⟩
  intro lines fermi kp es h
  rw [compute_gaps, h]
  simp only [Except.map]
  rw [gapsOf_eq_spec (parse_bands_ok_shape h).2 fermi]

/-- Witness for C5: instantiating the universal part at the two-band fixture
and Fermi level 0 and discharging the parse hypothesis concretely. -/
theorem C5_compute_gaps_spec_witness :
    compute_gaps gapFixtureLines 0 =
      Except.ok (specIndirectGap gapFixtureEs 0, specDirectGap gapFixtureEs 0) :=
  C5_compute_gaps_spec.1 gapFixtureLines 0 gapFixtureKp gapFixtureEs
    (by norm_num [parse_bands, splitBands, splitBandsStep, gapFixtureLines,
      gapFixtureKp, gapFixtureEs])

theorem valMap_xle (fermi e : ℚ) : XLe (valMap fermi e) (XRat.fin fermi) := by
  unfold valMap
  split <;> simp_all [XLe]

theorem valMap_ne_pinf (fermi e : ℚ) : valMap fermi e ≠ XRat.pinf := by
  unfold valMap
  split <;> simp

theorem conMap_xle (fermi e : ℚ) : XLe (XRat.fin fermi) (conMap fermi e) := by
  unfold conMap
  split <;> simp_all [XLe]

theorem conMap_ne_ninf (fermi e : ℚ) : conMap fermi e ≠ XRat.ninf := by
  unfold conMap
  split <;> simp

theorem colGet_mem_val {es : List (List ℚ)} {fermi : ℚ} {j : ℕ} {x : XRat}
    (hx : x ∈ colGet (es.map (List.map (valMap fermi))) j XRat.ninf) :
    XLe x (XRat.fin fermi) ∧ x ≠ XRat.pinf := by
  rcases List.mem_map.mp hx with ⟨row, hrow, rfl⟩
  rcases List.mem_map.mp hrow with ⟨band, hband, rfl⟩
  by_cases hj : j < band.length
  · rw [List.getD_eq_getElem?_getD, List.getElem?_map,
      List.getElem?_eq_getElem hj]
    exact ⟨valMap_xle fermi _, valMap_ne_pinf fermi _⟩
  · rw [List.getD_eq_getElem?_getD, List.getElem?_map,
      List.getElem?_eq_none (by omega)]
    simp [XLe]

theorem colGet_mem_con {es : List (List ℚ)} {fermi : ℚ} {j : ℕ} {x : XRat}
    (hx : x ∈ colGet (es.map (List.map (conMap fermi))) j XRat.pinf) :
    XLe (XRat.fin fermi) x ∧ x ≠ XRat.ninf := by
  rcases List.mem_map.mp hx with ⟨row, hrow, rfl⟩
  rcases List.mem_map.mp hrow with ⟨band, hband, rfl⟩
  by_cases hj : j < band.length
  · rw [List.getD_eq_getElem?_getD, List.getElem?_map,
      List.getElem?_eq_getElem hj]
    exact ⟨conMap_xle fermi _, conMap_ne_ninf fermi _⟩
  · rw [List.getD_eq_getElem?_getD, List.getElem?_map,
      List.getElem?_eq_none (by omega)]
    simp [XLe]

/-- C10: `compute_gaps` classifies an energy exactly equal to the Fermi level
as both valence (≤ Fermi) and conduction (≥ Fermi); consequently, for any
parsed band table in which some band energy equals the Fermi level at some
k-point, both the returned indirect gap and the returned direct gap are
finite values ≤ 0 — the metallic/degenerate case yields a non-positive
result rather than an error. -/
theorem C10_fermi_touch_nonpositive :
    ∀ (lines : List (List ℚ)) (fermi : ℚ) (kp : List ℚ) (es : List (List ℚ)),
      parse_bands lines = Except.ok (kp, es) →
      (∃ b ∈ es, fermi ∈ b) →
      ∃ ind dir, compute_gaps lines fermi = Except.ok (ind, dir)
        ∧ (∃ q ≤ 0, ind = XRat.fin q) ∧ (∃ q ≤ 0, dir = XRat.fin q) := by
  intro lines fermi kp es hparse hmem
  obtain ⟨b, hbes, hfb⟩ := hmem
  obtain ⟨-, hlen⟩ := parse_bands_ok_shape hparse
  obtain ⟨i, hib, hbi⟩ := List.mem_iff_getElem.mp hfb
  have hink : i < (es.headD []).length := by rw [← hlen b hbes]; exact hib
  set valM := es.map (List.map (valMap fermi)) with hvalM
  set conM := es.map (List.map (conMap fermi)) with hconM
  -- per-column facts
  have hFle : ∀ j, XLe ((colGet valM j XRat.ninf).foldl xmax XRat.ninf)
      (XRat.fin fermi) :=
    fun j => foldl_xmax_le trivial (fun x hx => (colGet_mem_val hx).1)
  have hFnp : ∀ j, (colGet valM j XRat.ninf).foldl xmax XRat.ninf ≠
      XRat.pinf :=
    fun j => foldl_xmax_ne_pinf (fun x hx => (colGet_mem_val hx).2) (by simp)
  have hGle : ∀ j, XLe (XRat.fin fermi)
      ((colGet conM j XRat.pinf).foldl xmin XRat.pinf) :=
    fun j => le_foldl_xmin trivial (fun x hx => (colGet_mem_con hx).1)
  have hGnn : ∀ j, (colGet conM j XRat.pinf).foldl xmin XRat.pinf ≠
      XRat.ninf :=
    fun j => foldl_xmin_ne_ninf (fun x hx => (colGet_mem_con hx).2) (by simp)
  -- the special column where fermi occurs exactly
  have hbmem : XRat.fin fermi ∈ colGet valM i XRat.ninf := by
    rw [hvalM]
    have : (b.map (valMap fermi)).getD i XRat.ninf = XRat.fin fermi := by
      rw [List.getD_eq_getElem?_getD, List.getElem?_map,
        List.getElem?_eq_getElem hib]
      simp [hbi, valMap]
    exact this ▸ List.mem_map_of_mem _ (List.mem_map_of_mem _ hbes)
  have hcmem : XRat.fin fermi ∈ colGet conM i XRat.pinf := by
    rw [hconM]
    have : (b.map (conMap fermi)).getD i XRat.pinf = XRat.fin fermi := by
      rw [List.getD_eq_getElem?_getD, List.getElem?_map,
        List.getElem?_eq_getElem hib]
      simp [hbi, conMap]
    exact this ▸ List.mem_map_of_mem _ (List.mem_map_of_mem _ hbes)
  have hFi : (colGet valM i XRat.ninf).foldl xmax XRat.ninf = XRat.fin fermi :=
    xle_antisymm (hFle i) (xle_foldl_xmax_mem hbmem _)
  have hGi : (colGet conM i XRat.pinf).foldl xmin XRat.pinf = XRat.fin fermi :=
    xle_antisymm (hGle i) (foldl_xmin_le_mem hcmem _) |>.symm
  -- global reductions
  have hvmem : XRat.fin fermi ∈ axisMax valM (es.headD []).length := by
    rw [axisMax, ← hFi]
    exact List.mem_map_of_mem _ (List.mem_range.mpr hink)
  have hcmem2 : XRat.fin fermi ∈ axisMin conM (es.headD []).length := by
    rw [axisMin, ← hGi]
    exact List.mem_map_of_mem _ (List.mem_range.mpr hink)
  have hvmax : (axisMax valM (es.headD []).length).foldl xmax XRat.ninf =
      XRat.fin fermi := by
    refine xle_antisymm ?_ (xle_foldl_xmax_mem hvmem _)
    refine foldl_xmax_le trivial ?_
    intro x hx
    rw [axisMax] at hx
    rcases List.mem_map.mp hx with ⟨j, hj, rfl⟩
    exact hFle j
  have hcmin : (axisMin conM (es.headD []).length).foldl xmin XRat.pinf =
      XRat.fin fermi := by
    refine (xle_antisymm ?_ (foldl_xmin_le_mem hcmem2 _)).symm
    refine le_foldl_xmin trivial ?_
    intro x hx
    rw [axisMin] at hx
    rcases List.mem_map.mp hx with ⟨j, hj, rfl⟩
    exact hGle j
  -- direct-gap column differences
  have hzip : List.zipWith xsub (axisMin conM (es.headD []).length)
      (axisMax valM (es.headD []).length) =
      (List.range (es.headD []).length).map
        (fun j => xsub ((colGet conM j XRat.pinf).foldl xmin XRat.pinf)
          ((colGet valM j XRat.ninf).foldl xmax XRat.ninf)) := by
    rw [axisMin, axisMax, List.zipWith_map_left, List.zipWith_map_right,
      List.zipWith_same]
  have hdl0 : XRat.fin 0 ∈ List.zipWith xsub
      (axisMin conM (es.headD []).length)
      (axisMax valM (es.headD []).length) := by
    rw [hzip]
    have hval : (fun j => xsub ((colGet conM j XRat.pinf).foldl xmin XRat.pinf)
        ((colGet valM j XRat.ninf).foldl xmax XRat.ninf)) i = XRat.fin 0 := by
      simp only [hFi, hGi, xsub, sub_self]
    exact hval ▸ List.mem_map_of_mem _ (List.mem_range.mpr hink)
  have hdlnn : ∀ x ∈ List.zipWith xsub (axisMin conM (es.headD []).length)
      (axisMax valM (es.headD []).length), x ≠ XRat.ninf := by
    rw [hzip]
    intro x hx
    rcases List.mem_map.mp hx with ⟨j, hj, rfl⟩
    exact xsub_ne_ninf (hGnn j) (hFnp j)
  have hdle : XLe ((List.zipWith xsub (axisMin conM (es.headD []).length)
      (axisMax valM (es.headD []).length)).foldl xmin XRat.pinf)
      (XRat.fin 0) := foldl_xmin_le_mem hdl0 _
  have hdnn : (List.zipWith xsub (axisMin conM (es.headD []).length)
      (axisMax valM (es.headD []).length)).foldl xmin XRat.pinf ≠
      XRat.ninf := foldl_xmin_ne_ninf hdlnn (by simp)
  rcases xle_fin_cases hdle with hd | ⟨q, hq, hdq⟩
  · exact absurd hd hdnn
  · refine ⟨XRat.fin (fermi - fermi), _, ?_, ?_, ⟨q, hq, hdq⟩⟩
    · rw [compute_gaps, hparse]
      show Except.ok (gapsOf es fermi) = _
      rw [gapsOf]
      simp only [← hvalM, ← hconM, hvmax, hcmin, xsub]
    · exact ⟨fermi - fermi, by simp, rfl⟩

/-- Witness for C10: the fixture table evaluated at Fermi level −1, which is
exactly the first band's energy at the first k-point; both gaps come out
finite and non-positive. -/
theorem C10_fermi_touch_nonpositive_witness :
    ∃ ind dir, compute_gaps gapFixtureLines (-1) = Except.ok (ind, dir)
      ∧ (∃ q ≤ 0, ind = XRat.fin q) ∧ (∃ q ≤ 0, dir = XRat.fin q) :=
  C10_fermi_touch_nonpositive gapFixtureLines (-1) gapFixtureKp gapFixtureEs
    (by norm_num [parse_bands, splitBands, splitBandsStep, gapFixtureLines,
      gapFixtureKp, gapFixtureEs])
    ⟨[-1, -1/2], by simp [gapFixtureEs], by simp⟩

/-- Python whitespace for `str.strip` / `str.split()`. -/
def isSpaceChar (c : Char) : Bool :=
  c == ' ' || c == '\t' || c == '\r' || c == '\n'

/-- Split a character list at every character satisfying `p` (keeping empty
pieces, like Python `str.split(sep)` for a one-character separator). -/
def charsSplitBy (p : Char → Bool) (cs : List Char) : List (List Char) :=
  cs.foldr
    (fun c acc => if p c then [] :: acc else (c :: acc.headD []) :: acc.tail)
    [[]]

/-- `str.splitlines` (modulo a possible trailing empty line, which matches no
parser pattern and is therefore irrelevant). -/
def charsLines (cs : List Char) : List (List Char) :=
  charsSplitBy (fun c => c == '\n') cs

/-- Python `str.split()`: split on whitespace runs, dropping empty pieces. -/
def charsTokens (cs : List Char) : List (List Char) :=
  (charsSplitBy isSpaceChar cs).filter (fun t => !t.isEmpty)

/-- Python `str.strip()`. -/
def charsStrip (cs : List Char) : List Char :=
  ((cs.dropWhile isSpaceChar).reverse.dropWhile isSpaceChar).reverse

/-- `parse_total_energy`: scan the log lines for the first line whose
stripped form starts with the fixed marker, take the text after the last "="
and convert its first whitespace token via `floatVal` (the Python `float`
conversion, supplied as an oracle); raise "total energy not found" when no
line matches. -/
def parse_total_energy (floatVal : List Char → Except String ℚ)
    (text : String) : Except String ℚ :=
  match (charsLines text.data).find?
      (fun l => charsLead "!    total energy".data (charsStrip l)) with
  | some l =>
    match (charsTokens ((charsSplitBy (fun c => c == '=') l).getLastD
        [])).head? with
    | some tok => floatVal tok
    | none => .error "list index out of range"
  | none => .error "total energy not found"

/-- `parse_fermi`: scan for the first line containing the fixed phrase and
convert its second-to-last whitespace token; raise "Fermi level not found"
when no line matches. -/
def parse_fermi (floatVal : List Char → Except String ℚ) (text : String) :
    Except String ℚ :=
  match (charsLines text.data).find?
      (fun l => charsContain l "the Fermi energy is".data) with
  | some l =>
    match (charsTokens l).dropLast.getLast? with
    | some tok => floatVal tok
    | none => .error "list index out of range"
  | none => .error "Fermi level not found"

/-- The sweep body's try-block: total energy first, then Fermi level; the
first raised exception wins. -/
def parseScfLog (floatVal : List Char → Except String ℚ) (text : String) :
    Except String (ℚ × ℚ) := do
  let e ← parse_total_energy floatVal text
  let f ← parse_fermi floatVal text
  pure (e, f)

/-- Exit status, elapsed duration and resulting log text of one
`run_mpi_qe` invocation, as seen by a sweep iteration. -/
structure ExecRes where
  rc : Int
  dur : ℚ
  log : String

/-- One sweep iteration body (campaign steps 4 and 5): FAIL with note
"command failed" when the exit status is nonzero or the completion marker is
missing; a parse failure of an otherwise successful log is caught and turned
into FAIL with the exception text in the note; on success the parsed
energies become a `ScfRun`. -/
def sweepIter (floatVal : List Char → Except String ℚ) (caseLabel : String)
    (rankCount : ℕ) (runLabel : String) (er : ExecRes) :
    CaseRec × Option ScfRun :=
  if er.rc ≠ 0 ∨ hasJobDone er.log = false then
    (⟨caseLabel, .FAIL, er.dur, "command failed"⟩, none)
  else
    match parseScfLog floatVal er.log with
    | .error msg => (⟨caseLabel, .FAIL, er.dur, "parse failed: " ++ msg⟩, none)
    | .ok (en, fe) =>
      (⟨caseLabel, .PASS, er.dur, "OK"⟩,
        some ⟨runLabel, rankCount, en, fe, er.dur⟩)

/-- The SCF rank sweep: one record per requested rank count (appended in
order), plus one `ScfRun` per PASS iteration. -/
def runRankSweep (floatVal : List Char → Except String ℚ) :
    List ℕ → (ℕ → ExecRes) → List CaseRec × List ScfRun
  | [], _ => ([], [])
  | r :: rest, exec =>
    let step := sweepIter floatVal ("scf_rank_" ++ toString r) r
      ("rank_" ++ toString r) (exec r)
    let tail := runRankSweep floatVal rest exec
    (step.1 :: tail.1, step.2.toList ++ tail.2)

/-- `max(...)` over the passing energies (Python `max` of a nonempty list;
the head default is never used at call sites, which guard non-emptiness). -/
def listMax (l : List ℚ) : ℚ := l.foldl max (l.headD 0)

/-- `min(...)` over the passing energies. -/
def listMin (l : List ℚ) : ℚ := l.foldl min (l.headD 0)

/-- Arithmetic mean. -/
def listMean (l : List ℚ) : ℚ := l.sum / l.length

/-- Population variance (divisor `n`), the square of `statistics.pstdev`. -/
def popVariance (l : List ℚ) : ℚ :=
  ((l.map (fun x => (x - listMean l) ^ 2)).sum) / l.length

/-- Sample variance (divisor `n − 1`), the square of `statistics.stdev`;
stated only to contrast with the population variance the code uses. -/
def sampleVariance (l : List ℚ) : ℚ :=
  ((l.map (fun x => (x - listMean l) ^ 2)).sum) / (l.length - 1 : ℕ)

/-- `rank_energy_span`: `max - min` over the passing runs' energies when at
least one run passed, NaN (modelled as `none`) otherwise. -/
def rankEnergySpan (runs : List ScfRun) : Option ℚ :=
  if runs.isEmpty then none
  else some (listMax (runs.map ScfRun.total_energy_ry) -
    listMin (runs.map ScfRun.total_energy_ry))

/-- `rep_energy_std` squared: the population variance of the passing runs'
energies when more than one run passed, NaN (modelled as `none`) otherwise.
The code reports `statistics.pstdev`, i.e. the square root of this value;
squaring keeps the embedding inside ℚ. -/
def repEnergyStdSq (runs : List ScfRun) : Option ℚ :=
  if 1 < runs.length then
    some (popVariance (runs.map ScfRun.total_energy_ry))
  else none

theorem runRankSweep_length (floatVal : List Char → Except String ℚ)
    (sweep : List ℕ) (exec : ℕ → ExecRes) :
    (runRankSweep floatVal sweep exec).1.length = sweep.length := by
  induction sweep with
  | nil => rfl
  | cons r rest ih => simp [runRankSweep, ih]

theorem foldl_max_init (l : List ℚ) (a : ℚ) : a ≤ l.foldl max a := by
  induction l generalizing a with
  | nil => exact le_refl a
  | cons x xs ih => exact le_trans (le_max_left a x) (ih (max a x))

theorem foldl_max_mem {l : List ℚ} {x : ℚ} (hx : x ∈ l) (a : ℚ) :
    x ≤ l.foldl max a := by
  induction l generalizing a with
  | nil => cases hx
  | cons y ys ih =>
    rcases List.mem_cons.mp hx with h | h
    · subst h
      exact le_trans (le_max_right a x) (foldl_max_init ys (max a x))
    · exact ih h (max a y)

theorem foldl_max_in (l : List ℚ) (a : ℚ) :
    l.foldl max a = a ∨ l.foldl max a ∈ l := by
  induction l generalizing a with
  | nil => exact Or.inl rfl
  | cons x xs ih =>
    rcases ih (max a x) with h | h
    · rcases max_choice a x with hm | hm
      · exact Or.inl (by rw [List.foldl_cons, h, hm])
      · exact Or.inr (by rw [List.foldl_cons, h, hm]; exact List.mem_cons_self x xs)
    · exact Or.inr (List.mem_cons_of_mem x h)

theorem foldl_min_init (l : List ℚ) (a : ℚ) : l.foldl min a ≤ a := by
  induction l generalizing a with
  | nil => exact le_refl a
  | cons x xs ih => exact le_trans (ih (min a x)) (min_le_left a x)

theorem foldl_min_mem {l : List ℚ} {x : ℚ} (hx : x ∈ l) (a : ℚ) :
    l.foldl min a ≤ x := by
  induction l generalizing a with
  | nil => cases hx
  | cons y ys ih =>
    rcases List.mem_cons.mp hx with h | h
    · subst h
      exact le_trans (foldl_min_init ys (min a x)) (min_le_right a x)
    · exact ih h (min a y)

theorem foldl_min_in (l : List ℚ) (a : ℚ) :
    l.foldl min a = a ∨ l.foldl min a ∈ l := by
  induction l generalizing a with
  | nil => exact Or.inl rfl
  | cons x xs ih =>
    rcases ih (min a x) with h | h
    · rcases min_choice a x with hm | hm
      · exact Or.inl (by rw [List.foldl_cons, h, hm])
      · exact Or.inr (by rw [List.foldl_cons, h, hm]; exact List.mem_cons_self x xs)
    · exact Or.inr (List.mem_cons_of_mem x h)

theorem listMax_mem {l : List ℚ} (h : l ≠ []) : listMax l ∈ l := by
  rcases l with _ | ⟨x, xs⟩
  · exact absurd rfl h
  · rcases foldl_max_in (x :: xs) ((x :: xs).headD 0) with hm | hm
    · rw [listMax, hm]
      exact List.mem_cons_self x xs
    · exact hm

theorem le_listMax {l : List ℚ} {x : ℚ} (hx : x ∈ l) : x ≤ listMax l :=
  foldl_max_mem hx _

theorem listMin_mem {l : List ℚ} (h : l ≠ []) : listMin l ∈ l := by
  rcases l with _ | ⟨x, xs⟩
  · exact absurd rfl h
  · rcases foldl_min_in (x :: xs) ((x :: xs).headD 0) with hm | hm
    · rw [listMin, hm]
      exact List.mem_cons_self x xs
    · exact hm

theorem listMin_le {l : List ℚ} {x : ℚ} (hx : x ∈ l) : listMin l ≤ x :=
  foldl_min_mem hx _

theorem sweepIter_run_dur (floatVal : List Char → Except String ℚ)
    (caseLabel : String) (rankCount : ℕ) (runLabel : String) (er : ExecRes) :
    ((sweepIter floatVal caseLabel rankCount runLabel er).2.toList.length =
      if (sweepIter floatVal caseLabel rankCount runLabel er).1.status =
        Status.PASS then 1 else 0)
    ∧ ∀ run ∈ (sweepIter floatVal caseLabel rankCount runLabel er).2,
        (sweepIter floatVal caseLabel rankCount runLabel er).1.status =
          Status.PASS
        ∧ (sweepIter floatVal caseLabel rankCount runLabel er).1.dur =
          run.duration_s := by
  unfold sweepIter
  split
  · simp
  · split
    · simp
    · simp

/-- The spec's dispersion fixture: energies −22.8390, −22.8391, −22.8389. -/
def dispFixture : List ℚ := [-22839/1000, -228391/10000, -228389/10000]

/-- A log that parses successfully: total energy, Fermi level, completion
marker. -/
def cexLog : String :=
  "!    total energy = -22.8390 Ry\nthe Fermi energy is 6.4346 ev\nJOB DONE."

/-- Float conversion oracle for the two tokens appearing in `cexLog`. -/
def cexFloatVal : List Char → Except String ℚ := fun tok =>
  if tok = "-22.8390".data then .ok (-22839/1000)
  else if tok = "6.4346".data then .ok (32173/5000)
  else .error "could not convert string to float"

/-- C6 (amended): sweep dispersion statistics are computed only over the
PASS subset; the span is max−min of the passing runs' values whenever at
least one iteration passes (hence 0.0, not NaN, when exactly one passes) and
NaN only when zero pass; the repeatability standard deviation is the
population (÷n, not ÷(n−1)) standard deviation of the passing values and is
NaN whenever fewer than 2 iterations pass; on the fixture energies the span
is 0.0002 and the population variance differs from the sample variance. -/
theorem C6_dispersion_stats :
    (∀ (floatVal : List Char → Except String ℚ) (sweep : List ℕ)
        (exec : ℕ → ExecRes),
      (runRankSweep floatVal sweep exec).2.length =
        (runRankSweep floatVal sweep exec).1.countP
          (fun c => c.status == Status.PASS)
      ∧ ∀ run ∈ (runRankSweep floatVal sweep exec).2,
          ∃ c ∈ (runRankSweep floatVal sweep exec).1,
            c.status = Status.PASS ∧ c.dur = run.duration_s)
    ∧ (∀ runs : List ScfRun,
        (rankEnergySpan runs = none ↔ runs = [])
        ∧ (runs ≠ [] →
            ∃ s, rankEnergySpan runs = some s
              ∧ s = listMax (runs.map ScfRun.total_energy_ry) -
                  listMin (runs.map ScfRun.total_energy_ry)
              ∧ listMax (runs.map ScfRun.total_energy_ry) ∈
                  runs.map ScfRun.total_energy_ry
              ∧ listMin (runs.map ScfRun.total_energy_ry) ∈
                  runs.map ScfRun.total_energy_ry
              ∧ ∀ x ∈ runs.map ScfRun.total_energy_ry,
                  listMin (runs.map ScfRun.total_energy_ry) ≤ x ∧
                  x ≤ listMax (runs.map ScfRun.total_energy_ry)))
    ∧ (∀ runs : List ScfRun,
        (repEnergyStdSq runs = none ↔ runs.length ≤ 1)
        ∧ (1 < runs.length → repEnergyStdSq runs =
            some (popVariance (runs.map ScfRun.total_energy_ry))))
    ∧ (listMax dispFixture - listMin dispFixture = 1/5000
        ∧ popVariance dispFixture = 1/150000000
        ∧ sampleVariance dispFixture = 1/100000000
        ∧ popVariance dispFixture ≠ sampleVariance dispFixture) := by
  refine ⟨?_, ?_, ?_, ?_⟩
  · intro floatVal sweep exec
    induction sweep with
    | nil => exact ⟨rfl, by simp [runRankSweep]⟩
    | cons r rest ih =>
      obtain ⟨ihlen, ihmem⟩ := ih
      constructor
      · have h1 := (sweepIter_run_dur floatVal ("scf_rank_" ++ toString r) r
          ("rank_" ++ toString r) (exec r)).1
        simp only [runRankSweep, List.length_append, List.countP_cons, h1,
          ihlen]
        by_cases hs : (sweepIter floatVal ("scf_rank_" ++ toString r) r
            ("rank_" ++ toString r) (exec r)).1.status = Status.PASS <;>
          simp [hs] <;> omega
      · intro run hrun
        simp only [runRankSweep, List.mem_append] at hrun
        rcases hrun with hrun | hrun
        · have hmem := Option.mem_toList.mp hrun
          have h2 := (sweepIter_run_dur floatVal ("scf_rank_" ++ toString r) r
            ("rank_" ++ toString r) (exec r)).2 run hmem
          exact ⟨_, List.mem_cons_self _ _, h2⟩
        · obtain ⟨c, hc, hcp⟩ := ihmem run hrun
          exact ⟨c, List.mem_cons_of_mem _ hc, hcp⟩
  · intro runs
    constructor
    · rw [rankEnergySpan]
      rcases runs with _ | ⟨x, xs⟩ <;> simp
    · intro hne
      refine ⟨_, by rw [rankEnergySpan, if_neg (by simpa using hne)], rfl,
        ?_, ?_, ?_⟩
      · exact listMax_mem (by simpa using hne)
      · exact listMin_mem (by simpa using hne)
      · exact fun x hx => ⟨listMin_le hx, le_listMax hx⟩
  · intro runs
    constructor
    · rw [repEnergyStdSq]
      split <;> simp <;> omega
    · intro hlt
      rw [repEnergyStdSq, if_pos hlt]
  · refine ⟨?_, ?_, ?_, ?_⟩ <;>
      norm_num [dispFixture, listMax, listMin, listMean, popVariance,
        sampleVariance]

/-- Witness for C6: the span conjunct instantiated at a concrete singleton
run list, discharging its nonemptiness hypothesis. -/
theorem C6_dispersion_stats_witness :
    ∃ s, rankEnergySpan [⟨"rank_2", 2, 5, 6, 1⟩] = some s
      ∧ s = listMax ([(⟨"rank_2", 2, 5, 6, 1⟩ : ScfRun)].map
          ScfRun.total_energy_ry) -
        listMin ([(⟨"rank_2", 2, 5, 6, 1⟩ : ScfRun)].map
          ScfRun.total_energy_ry) := by
  obtain ⟨s, h1, h2, -⟩ :=
    (C6_dispersion_stats.2.1 [⟨"rank_2", 2, 5, 6, 1⟩]).2 (by simp)
  exact ⟨s, h1, h2⟩

/-- C6 counterexample: a rank sweep in which exactly one iteration passes
still reports a computed span (0.0), not NaN — contradicting the claim that
both dispersion statistics are NaN whenever fewer than 2 iterations pass. -/
theorem C6_dispersion_stats_counterexample :
    (runRankSweep cexFloatVal [2] (fun _ => ⟨0, 1, cexLog⟩)).1.countP
      (fun c => c.status == Status.PASS) = 1
    ∧ rankEnergySpan
        (runRankSweep cexFloatVal [2] (fun _ => ⟨0, 1, cexLog⟩)).2 = some 0
    ∧ rankEnergySpan
        (runRankSweep cexFloatVal [2] (fun _ => ⟨0, 1, cexLog⟩)).2 ≠ none := by
  have hruns : runRankSweep cexFloatVal [2] (fun _ => ⟨0, 1, cexLog⟩) =
      ([⟨"scf_rank_2", .PASS, 1, "OK"⟩],
        [⟨"rank_2", 2, -22839/1000, 32173/5000, 1⟩]) := by rfl
  rw [hruns]
  refine ⟨by simp, ?_, ?_⟩ <;>
    simp [rankEnergySpan, listMax, listMin]

theorem runRankSweep_getD (floatVal : List Char → Except String ℚ) :
    ∀ (sweep : List ℕ) (exec : ℕ → ExecRes) (i : ℕ) (hi : i < sweep.length),
      (runRankSweep floatVal sweep exec).1.getD i ⟨"", .PASS, 0, ""⟩ =
        (sweepIter floatVal ("scf_rank_" ++ toString sweep[i]) sweep[i]
          ("rank_" ++ toString sweep[i]) (exec sweep[i])).1 := by
  intro sweep
  induction sweep with
  | nil =>
    intro exec i hi
    cases hi
  | cons r rest ih =>
    intro exec i hi
    cases i with
    | zero => simp [runRankSweep]
    | succ n =>
      have hn : n < rest.length := Nat.lt_of_succ_lt_succ hi
      simp only [runRankSweep, List.getD_cons_succ, List.getElem_cons_succ]
      exact ih exec n hn

/-- A log with the completion marker and a Fermi line but no total-energy
line, so that the energy parse raises while the command itself counted as
successful. -/
def noEnergyLog : String := "the Fermi energy is 6.4346 ev\nJOB DONE."

/-- C8: for every sweep iteration whose command succeeded (exit 0 and
completion marker present) but whose log fails to parse, the parse failure
is converted into a FAIL record whose note carries the parse exception text,
and every iteration of the sweep still produces its record (the campaign
continues rather than crashing). -/
theorem C8_parse_failure_contained :
    ∀ (floatVal : List Char → Except String ℚ) (sweep : List ℕ)
      (exec : ℕ → ExecRes) (i : ℕ) (hi : i < sweep.length) (msg : String),
      (exec sweep[i]).rc = 0 →
      hasJobDone (exec sweep[i]).log = true →
      parseScfLog floatVal (exec sweep[i]).log = Except.error msg →
      (runRankSweep floatVal sweep exec).1.length = sweep.length
      ∧ (runRankSweep floatVal sweep exec).1.getD i ⟨"", .PASS, 0, ""⟩ =
          ⟨"scf_rank_" ++ toString sweep[i], .FAIL, (exec sweep[i]).dur,
            "parse failed: " ++ msg⟩ := by
  intro floatVal sweep exec i hi msg hrc hjd hparse
  refine ⟨runRankSweep_length floatVal sweep exec, ?_⟩
  rw [runRankSweep_getD floatVal sweep exec i hi]
  unfold sweepIter
  rw [if_neg (by simp [hrc, hjd])]
  rw [hparse]

/-- Witness for C8: a two-iteration sweep whose first iteration exits 0 with
the completion marker but no total-energy line; the first record is FAIL
with the exception text and both iterations are recorded. -/
theorem C8_parse_failure_contained_witness :
    (runRankSweep cexFloatVal [2, 4] (fun _ => ⟨0, 1, noEnergyLog⟩)).1.length
      = 2
    ∧ (runRankSweep cexFloatVal [2, 4]
        (fun _ => ⟨0, 1, noEnergyLog⟩)).1.getD 0 ⟨"", .PASS, 0, ""⟩ =
        ⟨"scf_rank_2", .FAIL, 1, "parse failed: total energy not found"⟩ := by
  have h := C8_parse_failure_contained cexFloatVal [2, 4]
    (fun _ => ⟨0, 1, noEnergyLog⟩) 0 (by decide) "total energy not found"
    (by rfl) (by rfl) (by rfl)
  exact h

/-- The Python dict comprehension `{c.case: c.status for c in cases}`: on a
repeated case name the last occurrence wins. -/
def lookupStatus (cases : List CaseRec) (name : String) : Option Status :=
  ((cases.filter (fun c => c.case == name)).getLast?).map CaseRec.status

/-- The inner loop of `build_category_summary`: a declared name absent from
the recorded outcomes contributes to neither count; a present name raises
the total, and the passed count when its recorded status is PASS. -/
def categoryCounts (cases : List CaseRec) (names : List String) : ℕ × ℕ :=
  names.foldl
    (fun acc name =>
      match lookupStatus cases name with
      | none => acc
      | some s => (acc.1 + (if s == Status.PASS then 1 else 0), acc.2 + 1))
    (0, 0)

/-- The static "Core Workflow" member names. -/
def coreWorkflowNames : List String :=
  ["pw_scf", "pw_bands", "bands_post", "pw_nscf", "dos", "projwfc",
   "pp_charge", "plot_bands", "plot_dos", "plot_pdos", "analyze_bandgap"]

/-- The static "Phonon Chain" member names. -/
def phononChainNames : List String :=
  ["pw_scf_ph", "ph_gamma", "ph_grid", "q2r_ifc", "matdyn_gamma",
   "wrapper_ph"]

/-- The static "Wrapper/Linkage" member names. -/
def wrapperLinkageNames : List String := ["linkage_qe_bins", "wrapper_pw"]

/-- The static "Advanced Workflows" member names. -/
def advancedWorkflowNames : List String :=
  ["hp_scf_hubbard", "hp_num_pert", "neb_path_mini", "epw_scf", "epw_nscf",
   "epw_wannier90_pp", "epw_pw2wannier90", "epw_interp"]

/-- The "Reproducibility" members, derived from the recorded sweep cases. -/
def reproducibilityNames (cases : List CaseRec) : List String :=
  (cases.filter (fun c =>
    c.case.startsWith "scf_rank_" || c.case.startsWith "scf_repeat_")).map
    CaseRec.case

/-- The "Optional Modules" members, derived from the recorded module cases. -/
def optionalModuleNames (cases : List CaseRec) : List String :=
  (cases.filter (fun c => c.case.startsWith "module_")).map CaseRec.case

/-- The category table of `build_category_summary`, in declaration order. -/
def categoriesOf (cases : List CaseRec) : List (String × List String) :=
  [("Core Workflow", coreWorkflowNames),
   ("Phonon Chain", phononChainNames),
   ("Reproducibility", reproducibilityNames cases),
   ("Wrapper/Linkage", wrapperLinkageNames),
   ("Advanced Workflows", advancedWorkflowNames),
   ("Optional Modules", optionalModuleNames cases)]

/-- `build_category_summary`: per category, (passed, total) counted over the
declared member names against the recorded outcomes. -/
def build_category_summary (cases : List CaseRec) :
    List (String × (ℕ × ℕ)) :=
  (categoriesOf cases).map (fun cat => (cat.1, categoryCounts cases cat.2))

theorem categoryCounts_aux (cases : List CaseRec) :
    ∀ (names : List String) (p t : ℕ),
      names.foldl
        (fun acc name =>
          match lookupStatus cases name with
          | none => acc
          | some s =>
            (acc.1 + (if s == Status.PASS then 1 else 0), acc.2 + 1))
        (p, t) =
      (p + names.countP (fun n => lookupStatus cases n == some Status.PASS),
       t + names.countP (fun n => (lookupStatus cases n).isSome)) := by
  intro names
  induction names with
  | nil =>
    intro p t
    simp
  | cons n ns ih =>
    intro p t
    simp only [List.foldl_cons, List.countP_cons]
    rcases hl : lookupStatus cases n with _ | s
    · simpa using ih p t
    · cases s
      · rw [show (match some Status.PASS with
            | none => (p, t)
            | some s =>
              (p + if (s == Status.PASS) = true then 1 else 0, t + 1)) =
            (p + 1, t + 1) from by rfl]
        rw [ih]
        simp
        omega
      · rw [show (match some Status.FAIL with
            | none => (p, t)
            | some s =>
              (p + if (s == Status.PASS) = true then 1 else 0, t + 1)) =
            (p, t + 1) from by rfl]
        rw [ih]
        simp
        omega

/-- Path in the modelled filesystem: a list of path segments. -/
def pathLe (a b : List String) : Bool := a.isPrefixOf b

/-- `shutil.rmtree`: removes the directory and everything below it. -/
def rmtreeFS (fs : List String → Bool) (d : List String) :
    List String → Bool :=
  fun p => if pathLe d p then false else fs p

/-- `Path.mkdir(parents=True, exist_ok=True)`: creates the directory and all
its ancestors. -/
def mkdirP (fs : List String → Bool) (d : List String) :
    List String → Bool :=
  fun p => fs p || pathLe p d

/-- The directories `prepare_dirs` creates: the output root and its work,
input, logs, data, plots and tables subdirectories. -/
def campaignDirs (out : List String) : List (List String) :=
  [out, out ++ ["work"], out ++ ["input"], out ++ ["logs"], out ++ ["data"],
   out ++ ["plots"], out ++ ["tables"]]

/-- `prepare_dirs`: removes the whole pre-existing output tree if present,
then creates the fresh directory set. -/
def prepare_dirs (fs : List String → Bool) (out : List String) :
    List String → Bool :=
  (campaignDirs out).foldl mkdirP (if fs out then rmtreeFS fs out else fs)

theorem pathLe_refl (a : List String) : pathLe a a = true := by
  induction a with
  | nil => rfl
  | cons x xs ih =>
    simp only [pathLe, List.isPrefixOf, beq_self_eq_true, Bool.true_and]
    exact ih

theorem pathLe_trans {a b c : List String} (h1 : pathLe a b = true)
    (h2 : pathLe b c = true) : pathLe a c = true := by
  induction a generalizing b c with
  | nil => cases c <;> rfl
  | cons x xs ih =>
    cases b with
    | nil => simp [pathLe, List.isPrefixOf] at h1
    | cons y ys =>
      cases c with
      | nil => simp [pathLe, List.isPrefixOf] at h2
      | cons z zs =>
        simp only [pathLe, List.isPrefixOf, Bool.and_eq_true, beq_iff_eq]
          at h1 h2 ⊢
        exact ⟨h1.1.trans h2.1, ih h1.2 h2.2⟩

theorem pathLe_antisymm {a b : List String} (h1 : pathLe a b = true)
    (h2 : pathLe b a = true) : a = b := by
  induction a generalizing b with
  | nil =>
    cases b with
    | nil => rfl
    | cons y ys => simp [pathLe, List.isPrefixOf] at h2
  | cons x xs ih =>
    cases b with
    | nil => simp [pathLe, List.isPrefixOf] at h1
    | cons y ys =>
      simp only [pathLe, List.isPrefixOf, Bool.and_eq_true, beq_iff_eq]
        at h1 h2
      rw [h1.1, ih h1.2 h2.2]

theorem pathLe_concat {p out : List String} {x : String}
    (h : pathLe p (out ++ [x]) = true) :
    pathLe p out = true ∨ p = out ++ [x] := by
  induction out generalizing p with
  | nil =>
    cases p with
    | nil => exact Or.inl rfl
    | cons y ys =>
      simp only [List.nil_append, pathLe, List.isPrefixOf,
        Bool.and_eq_true, beq_iff_eq] at h
      cases ys with
      | nil => exact Or.inr (by simp [h.1])
      | cons z zs => simp [List.isPrefixOf] at h
  | cons o os ih =>
    cases p with
    | nil => exact Or.inl rfl
    | cons y ys =>
      simp only [List.cons_append, pathLe, List.isPrefixOf,
        Bool.and_eq_true, beq_iff_eq] at h
      rcases ih h.2 with h2 | h2
      · refine Or.inl ?_
        simp only [pathLe, List.isPrefixOf, Bool.and_eq_true, beq_iff_eq]
        exact ⟨h.1, h2⟩
      · exact Or.inr (by simp [h.1, h2])

theorem foldl_mkdirP : ∀ (ds : List (List String))
    (fs : List String → Bool) (p : List String),
    ((ds.foldl mkdirP fs) p = true) ↔
      (fs p = true ∨ ∃ d ∈ ds, pathLe p d = true) := by
  intro ds
  induction ds with
  | nil =>
    intro fs p
    simp
  | cons d rest ih =>
    intro fs p
    rw [List.foldl_cons, ih]
    simp only [mkdirP, Bool.or_eq_true, List.mem_cons]
    constructor
    · rintro ((h | h) | ⟨e, he, hpe⟩)
      · exact Or.inl h
      · exact Or.inr ⟨d, Or.inl rfl, h⟩
      · exact Or.inr ⟨e, Or.inr he, hpe⟩
    · rintro (h | ⟨e, (rfl | he), hpe⟩)
      · exact Or.inl (Or.inl h)
      · exact Or.inl (Or.inr hpe)
      · exact Or.inr ⟨e, he, hpe⟩

/-- C7: for every outcome sequence and every declared category, the summary
counts (passed, total) range only over the category's declared case names
that actually appear in the outcomes — an absent declared name contributes
to neither count and no result is fabricated for a case never attempted; in
particular a category declaring x and y with only x recorded yields
total 1, never 2. -/
theorem C7_category_counts :
    (∀ (cases : List CaseRec) (names : List String),
      categoryCounts cases names =
        (names.countP (fun n => lookupStatus cases n == some Status.PASS),
         names.countP (fun n => (lookupStatus cases n).isSome)))
    ∧ (∀ cases : List CaseRec,
        build_category_summary cases = (categoriesOf cases).map
          (fun cat => (cat.1,
            (cat.2.countP (fun n => lookupStatus cases n == some Status.PASS),
             cat.2.countP (fun n => (lookupStatus cases n).isSome)))))
    ∧ categoryCounts [⟨"x", Status.PASS, 0, ""⟩] ["x", "y"] = (1, 1) := by
  have hcc : ∀ (cases : List CaseRec) (names : List String),
      categoryCounts cases names =
        (names.countP (fun n => lookupStatus cases n == some Status.PASS),
         names.countP (fun n => (lookupStatus cases n).isSome)) := by
    intro cases names
    rw [categoryCounts, categoryCounts_aux cases names 0 0]
    simp
  refine ⟨hcc, ?_, by rfl⟩
  intro cases
  rw [build_category_summary]
  apply List.map_congr_left
  intro cat hcat
  rw [hcc cases cat.2]

/-- C9: `prepare_dirs` first deletes the entire pre-existing output tree (if
present) and then creates exactly the output root plus its work, input,
logs, data, plots and tables subdirectories: on any prefix-closed starting
filesystem, a path at or below the output root exists afterwards iff it is
one of those seven directories — so no artifact of a previous campaign
under the same output directory survives. -/
theorem C9_prepare_dirs_fresh :
    ∀ (fs : List String → Bool) (out : List String),
      (∀ p q : List String, pathLe p q = true → fs q = true → fs p = true) →
      ∀ p : List String, pathLe out p = true →
        (prepare_dirs fs out p = true ↔ p ∈ campaignDirs out) := by
  intro fs out hclosed p hp
  rw [prepare_dirs, foldl_mkdirP]
  constructor
  · rintro (hfs | ⟨d, hd, hpd⟩)
    · by_cases ho : fs out = true
      · rw [if_pos ho] at hfs
        rw [rmtreeFS, if_pos hp] at hfs
        cases hfs
      · rw [if_neg ho] at hfs
        exact absurd (hclosed out p hp hfs) ho
    · have hsub : d = out ∨ ∃ x, d = out ++ [x] := by
        simp only [campaignDirs, List.mem_cons, List.not_mem_nil,
          or_false] at hd
        rcases hd with rfl | rfl | rfl | rfl | rfl | rfl | rfl
        · exact Or.inl rfl
        · exact Or.inr ⟨"work", rfl⟩
        · exact Or.inr ⟨"input", rfl⟩
        · exact Or.inr ⟨"logs", rfl⟩
        · exact Or.inr ⟨"data", rfl⟩
        · exact Or.inr ⟨"plots", rfl⟩
        · exact Or.inr ⟨"tables", rfl⟩
      rcases hsub with rfl | ⟨x, rfl⟩
      · have := pathLe_antisymm hp hpd
        rw [← this]
        exact List.mem_cons_self _ _
      · rcases pathLe_concat hpd with h2 | rfl
        · have := pathLe_antisymm hp h2
          rw [← this]
          exact List.mem_cons_self _ _
        · exact hd
  · intro hmem
    exact Or.inr ⟨p, hmem, pathLe_refl p⟩

/-- Witness for C9: a filesystem holding `out/work/old.log` (and its
ancestors), which is prefix-closed; after `prepare_dirs` the old artifact is
gone. -/
theorem C9_prepare_dirs_fresh_witness :
    prepare_dirs (fun p => pathLe p ["out", "work", "old.log"]) ["out"]
      ["out", "work", "old.log"] = false := by
  have h := C9_prepare_dirs_fresh
    (fun p => pathLe p ["out", "work", "old.log"]) ["out"]
    (fun p q hpq hq => pathLe_trans hpq hq) ["out", "work", "old.log"]
    (by decide)
  have hmem : ¬ (["out", "work", "old.log"] ∈ campaignDirs ["out"]) := by
    decide
  rcases Bool.eq_false_or_eq_true (prepare_dirs
      (fun p => pathLe p ["out", "work", "old.log"]) ["out"]
      ["out", "work", "old.log"]) with ht | hf
  · exact absurd (h.mp ht) hmem
  · exact hf

/-- Status decision used by the core pipeline, the serial q2r/matdyn chain,
the wrapper checks and the HP / EPW pw.x and pw2wannier90 steps: PASS iff
the exit status is 0 and the completion marker is present in the log. -/
def pipelineStatus (rc : Int) (logText : String) : Status :=
  if rc = 0 ∧ hasJobDone logText = true then .PASS else .FAIL

/-- NEB status: PASS iff the completion marker is present and the exit
status is 0 or 1 (`neb_rc in (0, 1)`). -/
def nebStatus (rc : Int) (logText : String) : Status :=
  if hasJobDone logText = true ∧ (rc = 0 ∨ rc = 1) then .PASS else .FAIL

/-- wannier90 -pp status: PASS iff exit 0 and the .nnkp file exists. -/
def w90ppStatus (rc : Int) (nnkpExists : Bool) : Status :=
  if rc = 0 ∧ nnkpExists = true then .PASS else .FAIL

/-- EPW interpolation status: PASS iff exit 0 and the interpolation marker
is present in the log. -/
def epwInterpStatus (rc : Int) (logText : String) : Status :=
  if rc = 0 ∧ hasEpwInterpolationMarker logText = true then .PASS else .FAIL

/-- Module launch check status (campaign step 6): judged by the launch
banner text only — the exit status plays no part. -/
def moduleLaunchStatus (logText : String) : Status :=
  if strContains logText "Program" = true ∧
      strContains logText "starts" = true
  then .PASS else .FAIL

/-- One module-launch record: the status ignores the exit status, which is
recorded only inside the note. -/
def moduleCase (module : String) (rc : Int) (dur : ℚ) (logText : String) :
    CaseRec :=
  ⟨"module_" ++ module.dropRight 2 ++ "_launch", moduleLaunchStatus logText,
    dur, "exit=" ++ toString rc⟩

/-- Plot/analysis script step (campaign step 9): PASS iff exit 0, with no
log-marker requirement. -/
def plotStepStatus (rc : Int) : Status := if rc = 0 then .PASS else .FAIL

/-- Exit status, duration and resulting log of one advanced-workflow step
execution, supplied by the oracle standing for the external solver. -/
structure StepRun where
  rc : Int
  dur : ℚ
  log : String

/-- Oracle for `run_advanced_workflows`: which executables exist, and what
each step would produce if run. -/
structure AdvOracle where
  hasExe : String → Bool
  hpScf : StepRun
  hpRun : StepRun
  neb : StepRun
  nebBarrier : Option ℚ
  epwScf : StepRun
  epwNscf : StepRun
  epwW90 : StepRun
  nnkpAfterW90 : Bool
  epwPw2wan : StepRun
  epwInterp : StepRun

/-- Identifier of each potential `run_command` invocation inside
`run_advanced_workflows`, used as the invocation spy. -/
inductive StepId where
  | hpScfStep : StepId
  | hpStep : StepId
  | nebStep : StepId
  | epwScfStep : StepId
  | epwNscfStep : StepId
  | epwW90Step : StepId
  | epwPw2wanStep : StepId
  | epwInterpStep : StepId
deriving DecidableEq

/-- The HP mini-workflow: SCF with Hubbard correction, then hp.x; the second
link is skipped when the first fails, and both fail with notes naming the
missing executables when pw.x or hp.x is absent. -/
def hpChain (o : AdvOracle) : List CaseRec × List StepId :=
  if o.hasExe "pw.x" = false ∨ o.hasExe "hp.x" = false then
    ([⟨"hp_scf_hubbard", .FAIL, 0, "missing pw.x/hp.x"⟩,
      ⟨"hp_num_pert", .FAIL, 0, "skipped (missing pw.x/hp.x)"⟩], [])
  else
    if pipelineStatus o.hpScf.rc o.hpScf.log = .PASS then
      ([⟨"hp_scf_hubbard", pipelineStatus o.hpScf.rc o.hpScf.log,
          o.hpScf.dur, "prefix=sihp"⟩,
        ⟨"hp_num_pert", pipelineStatus o.hpRun.rc o.hpRun.log, o.hpRun.dur,
          "determine_num_pert_only"⟩], [.hpScfStep, .hpStep])
    else
      ([⟨"hp_scf_hubbard", pipelineStatus o.hpScf.rc o.hpScf.log,
          o.hpScf.dur, "prefix=sihp"⟩,
        ⟨"hp_num_pert", .FAIL, 0, "skipped (hp_scf_hubbard failed)"⟩],
        [.hpScfStep])

/-- The NEB mini-workflow: a single step accepting exit statuses 0 and 1. -/
def nebChain (o : AdvOracle) : List CaseRec × List StepId :=
  if o.hasExe "neb.x" = false then
    ([⟨"neb_path_mini", .FAIL, 0, "missing neb.x"⟩], [])
  else
    ([⟨"neb_path_mini", nebStatus o.neb.rc o.neb.log, o.neb.dur,
      match o.nebBarrier with
      | some b => "barrier=" ++ toString b ++ " eV"
      | none => "exit=" ++ toString o.neb.rc⟩], [.nebStep])

/-- The executables the EPW mini-workflow requires. -/
def epwRequired : List String :=
  ["pw.x", "wannier90.x", "pw2wannier90.x", "epw.x"]

/-- The EPW mini-workflow: SCF → NSCF → wannier90 -pp → pw2wannier90 → EPW
interpolation, with cascading skips on the first failing link and a
missing-stack branch failing all five cases without any execution. -/
def epwChain (o : AdvOracle) : List CaseRec × List StepId :=
  if epwRequired.any (fun e => o.hasExe e = false) then
    ([⟨"epw_scf", .FAIL, 0, "missing " ++ String.intercalate ","
        (epwRequired.filter (fun e => o.hasExe e = false))⟩,
      ⟨"epw_nscf", .FAIL, 0, "skipped (missing EPW stack)"⟩,
      ⟨"epw_wannier90_pp", .FAIL, 0, "skipped (missing EPW stack)"⟩,
      ⟨"epw_pw2wannier90", .FAIL, 0, "skipped (missing EPW stack)"⟩,
      ⟨"epw_interp", .FAIL, 0, "skipped (missing EPW stack)"⟩], [])
  else
    if pipelineStatus o.epwScf.rc o.epwScf.log = .PASS then
      if pipelineStatus o.epwNscf.rc o.epwNscf.log = .PASS then
        if w90ppStatus o.epwW90.rc o.nnkpAfterW90 = .PASS then
          if pipelineStatus o.epwPw2wan.rc o.epwPw2wan.log = .PASS then
            ([⟨"epw_scf", pipelineStatus o.epwScf.rc o.epwScf.log,
                o.epwScf.dur, "prefix=siepw"⟩,
              ⟨"epw_nscf", pipelineStatus o.epwNscf.rc o.epwNscf.log,
                o.epwNscf.dur, "8-point grid"⟩,
              ⟨"epw_wannier90_pp", w90ppStatus o.epwW90.rc o.nnkpAfterW90,
                o.epwW90.dur, "seed=siepw"⟩,
              ⟨"epw_pw2wannier90",
                pipelineStatus o.epwPw2wan.rc o.epwPw2wan.log,
                o.epwPw2wan.dur, "AMN/MMN"⟩,
              ⟨"epw_interp", epwInterpStatus o.epwInterp.rc o.epwInterp.log,
                o.epwInterp.dur, "interpolation mode"⟩],
              [.epwScfStep, .epwNscfStep, .epwW90Step, .epwPw2wanStep,
                .epwInterpStep])
          else
            ([⟨"epw_scf", pipelineStatus o.epwScf.rc o.epwScf.log,
                o.epwScf.dur, "prefix=siepw"⟩,
              ⟨"epw_nscf", pipelineStatus o.epwNscf.rc o.epwNscf.log,
                o.epwNscf.dur, "8-point grid"⟩,
              ⟨"epw_wannier90_pp", w90ppStatus o.epwW90.rc o.nnkpAfterW90,
                o.epwW90.dur, "seed=siepw"⟩,
              ⟨"epw_pw2wannier90",
                pipelineStatus o.epwPw2wan.rc o.epwPw2wan.log,
                o.epwPw2wan.dur, "AMN/MMN"⟩,
              ⟨"epw_interp", .FAIL, 0, "skipped (epw_pw2wannier90 failed)"⟩],
              [.epwScfStep, .epwNscfStep, .epwW90Step, .epwPw2wanStep])
        else
          ([⟨"epw_scf", pipelineStatus o.epwScf.rc o.epwScf.log,
              o.epwScf.dur, "prefix=siepw"⟩,
            ⟨"epw_nscf", pipelineStatus o.epwNscf.rc o.epwNscf.log,
              o.epwNscf.dur, "8-point grid"⟩,
            ⟨"epw_wannier90_pp", w90ppStatus o.epwW90.rc o.nnkpAfterW90,
              o.epwW90.dur, "seed=siepw"⟩,
            ⟨"epw_pw2wannier90", .FAIL, 0,
              "skipped (epw_wannier90_pp failed)"⟩,
            ⟨"epw_interp", .FAIL, 0, "skipped (epw_pw2wannier90 failed)"⟩],
            [.epwScfStep, .epwNscfStep, .epwW90Step])
      else
        ([⟨"epw_scf", pipelineStatus o.epwScf.rc o.epwScf.log,
            o.epwScf.dur, "prefix=siepw"⟩,
          ⟨"epw_nscf", pipelineStatus o.epwNscf.rc o.epwNscf.log,
            o.epwNscf.dur, "8-point grid"⟩,
          ⟨"epw_wannier90_pp", .FAIL, 0, "skipped (epw_nscf failed)"⟩,
          ⟨"epw_pw2wannier90", .FAIL, 0,
            "skipped (epw_wannier90_pp failed)"⟩,
          ⟨"epw_interp", .FAIL, 0, "skipped (epw_pw2wannier90 failed)"⟩],
          [.epwScfStep, .epwNscfStep])
    else
      ([⟨"epw_scf", pipelineStatus o.epwScf.rc o.epwScf.log, o.epwScf.dur,
          "prefix=siepw"⟩,
        ⟨"epw_nscf", .FAIL, 0, "skipped (epw_scf failed)"⟩,
        ⟨"epw_wannier90_pp", .FAIL, 0, "skipped (epw_nscf failed)"⟩,
        ⟨"epw_pw2wannier90", .FAIL, 0,
          "skipped (epw_wannier90_pp failed)"⟩,
        ⟨"epw_interp", .FAIL, 0, "skipped (epw_pw2wannier90 failed)"⟩],
        [.epwScfStep])

/-- `run_advanced_workflows`: the three mini-workflows in source order,
collecting outcome records and the invocation spy. -/
def run_advanced_workflows (o : AdvOracle) : List CaseRec × List StepId :=
  ((hpChain o).1 ++ (nebChain o).1 ++ (epwChain o).1,
    (hpChain o).2 ++ (nebChain o).2 ++ (epwChain o).2)

/-- How many records of `recs` carry the case name `name`. -/
def countCase (recs : List CaseRec) (name : String) : ℕ :=
  recs.countP (fun r => r.case == name)

/-- The first record of `recs` carrying the case name `name`. -/
def findCase (recs : List CaseRec) (name : String) : Option CaseRec :=
  recs.find? (fun r => r.case == name)

/-- Recorded status of a case in the advanced workflows. -/
def statusOf (o : AdvOracle) (name : String) : Option Status :=
  (findCase (run_advanced_workflows o).1 name).map CaseRec.status

/-- Recorded note of a case in the advanced workflows (empty if absent). -/
def noteOf (o : AdvOracle) (name : String) : String :=
  ((findCase (run_advanced_workflows o).1 name).map CaseRec.note).getD ""

theorem skip_note_contains :
    strContains "skipped (missing pw.x/hp.x)" "skipped" = true
    ∧ strContains "skipped (hp_scf_hubbard failed)" "skipped" = true
    ∧ strContains "skipped (missing EPW stack)" "skipped" = true
    ∧ strContains "skipped (epw_scf failed)" "skipped" = true
    ∧ strContains "skipped (epw_nscf failed)" "skipped" = true
    ∧ strContains "skipped (epw_wannier90_pp failed)" "skipped" = true
    ∧ strContains "skipped (epw_pw2wannier90 failed)" "skipped" = true := by
  refine ⟨?_, ?_, ?_, ?_, ?_, ?_, ?_⟩ <;> decide

theorem hpChain_spec (o : AdvOracle) :
    (hpChain o).1.map CaseRec.case = ["hp_scf_hubbard", "hp_num_pert"]
    ∧ ((findCase (hpChain o).1 "hp_scf_hubbard").map CaseRec.status =
        some Status.FAIL →
      (findCase (hpChain o).1 "hp_num_pert").map CaseRec.status =
        some Status.FAIL
      ∧ strContains (((findCase (hpChain o).1 "hp_num_pert").map
          CaseRec.note).getD "") "skipped" = true
      ∧ StepId.hpStep ∉ (hpChain o).2)
    ∧ (o.hasExe "pw.x" = true → o.hasExe "hp.x" = true →
      (findCase (hpChain o).1 "hp_scf_hubbard").map CaseRec.status =
        some Status.FAIL →
      ((findCase (hpChain o).1 "hp_num_pert").map CaseRec.note).getD "" =
        "skipped (hp_scf_hubbard failed)") := by
  unfold hpChain
  split_ifs with h1 h2
  · exact ⟨rfl, fun hfail => ⟨rfl, skip_note_contains.1, by simp⟩,
      fun hpw hhp hfail => by rcases h1 with h | h <;> simp_all⟩
  · refine ⟨rfl, fun hfail => ?_, fun hpw hhp hfail => ?_⟩ <;>
    · simp only [findCase, List.find?] at hfail
      simp only [h2] at hfail
      simp at hfail
  · exact ⟨rfl, fun hfail => ⟨rfl, skip_note_contains.2.1, by simp⟩,
      fun hpw hhp hfail => rfl⟩

theorem nebChain_names (o : AdvOracle) :
    (nebChain o).1.map CaseRec.case = ["neb_path_mini"] := by
  unfold nebChain
  split_ifs <;> rfl

theorem epwChain_spec (o : AdvOracle) :
    (epwChain o).1.map CaseRec.case =
      ["epw_scf", "epw_nscf", "epw_wannier90_pp", "epw_pw2wannier90",
       "epw_interp"]
    ∧ (∀ pr ∈ [("epw_scf", "epw_nscf", StepId.epwNscfStep),
        ("epw_nscf", "epw_wannier90_pp", StepId.epwW90Step),
        ("epw_wannier90_pp", "epw_pw2wannier90", StepId.epwPw2wanStep),
        ("epw_pw2wannier90", "epw_interp", StepId.epwInterpStep)],
      (findCase (epwChain o).1 pr.1).map CaseRec.status = some Status.FAIL →
        (findCase (epwChain o).1 pr.2.1).map CaseRec.status =
          some Status.FAIL
        ∧ strContains (((findCase (epwChain o).1 pr.2.1).map
            CaseRec.note).getD "") "skipped" = true
        ∧ pr.2.2 ∉ (epwChain o).2)
    ∧ (epwRequired.all o.hasExe = true →
      ∀ pr ∈ [("epw_scf", "epw_nscf"), ("epw_nscf", "epw_wannier90_pp"),
        ("epw_wannier90_pp", "epw_pw2wannier90"),
        ("epw_pw2wannier90", "epw_interp")],
      (findCase (epwChain o).1 pr.1).map CaseRec.status = some Status.FAIL →
        ((findCase (epwChain o).1 pr.2).map CaseRec.note).getD "" =
          "skipped (" ++ pr.1 ++ " failed)") := by
  unfold epwChain
  split_ifs with hmiss h1 h2 h3 h4
  · -- missing EPW stack
    refine ⟨rfl, ?_, ?_⟩
    · intro pr hpr hfail
      simp only [List.mem_cons, List.not_mem_nil, or_false] at hpr
      rcases hpr with rfl | rfl | rfl | rfl <;>
        exact ⟨rfl, skip_note_contains.2.2.1, by simp⟩
    · intro hall
      exfalso
      simp only [List.any_eq_true] at hmiss
      obtain ⟨e, he, hee⟩ := hmiss
      have := (List.all_eq_true.mp hall) e he
      simp_all
  · -- all five steps executed
    refine ⟨rfl, ?_, ?_⟩
    · intro pr hpr hfail
      simp only [List.mem_cons, List.not_mem_nil, or_false] at hpr
      rcases hpr with rfl | rfl | rfl | rfl <;>
        simp_all [findCase, List.find?]
    · intro hall pr hpr hfail
      simp only [List.mem_cons, List.not_mem_nil, or_false] at hpr
      rcases hpr with rfl | rfl | rfl | rfl <;>
        simp_all [findCase, List.find?]
  · -- pw2wannier90 failed
    refine ⟨rfl, ?_, ?_⟩
    · intro pr hpr hfail
      simp only [List.mem_cons, List.not_mem_nil, or_false] at hpr
      rcases hpr with rfl | rfl | rfl | rfl
      · simp_all [findCase, List.find?]
      · simp_all [findCase, List.find?]
      · simp_all [findCase, List.find?]
      · exact ⟨rfl, skip_note_contains.2.2.2.2.2.2, by simp⟩
    · intro hall pr hpr hfail
      simp only [List.mem_cons, List.not_mem_nil, or_false] at hpr
      rcases hpr with rfl | rfl | rfl | rfl
      · simp_all [findCase, List.find?]
      · simp_all [findCase, List.find?]
      · simp_all [findCase, List.find?]
      · rfl
  · -- wannier90 -pp failed
    refine ⟨rfl, ?_, ?_⟩
    · intro pr hpr hfail
      simp only [List.mem_cons, List.not_mem_nil, or_false] at hpr
      rcases hpr with rfl | rfl | rfl | rfl
      · simp_all [findCase, List.find?]
      · simp_all [findCase, List.find?]
      · exact ⟨rfl, skip_note_contains.2.2.2.2.2.1, by simp⟩
      · exact ⟨rfl, skip_note_contains.2.2.2.2.2.2, by simp⟩
    · intro hall pr hpr hfail
      simp only [List.mem_cons, List.not_mem_nil, or_false] at hpr
      rcases hpr with rfl | rfl | rfl | rfl
      · simp_all [findCase, List.find?]
      · simp_all [findCase, List.find?]
      · rfl
      · rfl
  · -- nscf failed
    refine ⟨rfl, ?_, ?_⟩
    · intro pr hpr hfail
      simp only [List.mem_cons, List.not_mem_nil, or_false] at hpr
      rcases hpr with rfl | rfl | rfl | rfl
      · simp_all [findCase, List.find?]
      · exact ⟨rfl, skip_note_contains.2.2.2.2.1, by simp⟩
      · exact ⟨rfl, skip_note_contains.2.2.2.2.2.1, by simp⟩
      · exact ⟨rfl, skip_note_contains.2.2.2.2.2.2, by simp⟩
    · intro hall pr hpr hfail
      simp only [List.mem_cons, List.not_mem_nil, or_false] at hpr
      rcases hpr with rfl | rfl | rfl | rfl
      · simp_all [findCase, List.find?]
      · rfl
      · rfl
      · rfl
  · -- scf failed
    refine ⟨rfl, ?_, ?_⟩
    · intro pr hpr hfail
      simp only [List.mem_cons, List.not_mem_nil, or_false] at hpr
      rcases hpr with rfl | rfl | rfl | rfl
      · exact ⟨rfl, skip_note_contains.2.2.2.1, by simp⟩
      · exact ⟨rfl, skip_note_contains.2.2.2.2.1, by simp⟩
      · exact ⟨rfl, skip_note_contains.2.2.2.2.2.1, by simp⟩
      · exact ⟨rfl, skip_note_contains.2.2.2.2.2.2, by simp⟩
    · intro hall pr hpr hfail
      simp only [List.mem_cons, List.not_mem_nil, or_false] at hpr
      rcases hpr with rfl | rfl | rfl | rfl
      · rfl
      · rfl
      · rfl
      · rfl

theorem countCase_append (l1 l2 : List CaseRec) (n : String) :
    countCase (l1 ++ l2) n = countCase l1 n + countCase l2 n :=
  List.countP_append _ _ _

theorem countCase_eq_names (recs : List CaseRec) (n : String) :
    countCase recs n = (recs.map CaseRec.case).countP (fun c => c == n) := by
  rw [countCase, List.countP_map]
  rfl

theorem findCase_append (l1 l2 : List CaseRec) (n : String) :
    findCase (l1 ++ l2) n = (findCase l1 n).or (findCase l2 n) :=
  List.find?_append

theorem findCase_eq_none {recs : List CaseRec} {n : String}
    (h : ¬ n ∈ recs.map CaseRec.case) : findCase recs n = none := by
  rw [findCase, List.find?_eq_none]
  intro r hr hpr
  exact h (List.mem_map.mpr ⟨r, hr, beq_iff_eq.mp hpr⟩)

theorem findCase_run_adv (o : AdvOracle) (n : String) :
    findCase (run_advanced_workflows o).1 n =
      ((findCase (hpChain o).1 n).or (findCase (nebChain o).1 n)).or
        (findCase (epwChain o).1 n) := by
  rw [show (run_advanced_workflows o).1 =
    (hpChain o).1 ++ (nebChain o).1 ++ (epwChain o).1 from rfl]
  rw [findCase_append, findCase_append]

theorem hpChain_steps (o : AdvOracle) :
    ∀ s ∈ (hpChain o).2, s = StepId.hpScfStep ∨ s = StepId.hpStep := by
  unfold hpChain
  split_ifs <;> intro s hs <;> simp_all

theorem nebChain_steps (o : AdvOracle) :
    ∀ s ∈ (nebChain o).2, s = StepId.nebStep := by
  unfold nebChain
  split_ifs <;> intro s hs <;> simp_all

theorem epwChain_steps (o : AdvOracle) :
    ∀ s ∈ (epwChain o).2, s = StepId.epwScfStep ∨ s = StepId.epwNscfStep
      ∨ s = StepId.epwW90Step ∨ s = StepId.epwPw2wanStep
      ∨ s = StepId.epwInterpStep := by
  unfold epwChain
  split_ifs <;> intro s hs <;> simp_all <;> tauto

theorem statusOf_hp (o : AdvOracle) {n : String}
    (hn : n = "hp_scf_hubbard" ∨ n = "hp_num_pert") :
    statusOf o n = (findCase (hpChain o).1 n).map CaseRec.status
    ∧ noteOf o n = ((findCase (hpChain o).1 n).map CaseRec.note).getD "" := by
  have hneb : findCase (nebChain o).1 n = none := by
    refine findCase_eq_none ?_
    rw [nebChain_names]
    rcases hn with rfl | rfl <;> decide
  have hepw : findCase (epwChain o).1 n = none := by
    refine findCase_eq_none ?_
    rw [(epwChain_spec o).1]
    rcases hn with rfl | rfl <;> decide
  rw [statusOf, noteOf, findCase_run_adv, hneb, hepw, Option.or_none,
    Option.or_none]
  exact ⟨rfl, rfl⟩

theorem statusOf_epw (o : AdvOracle) {n : String}
    (hn : n = "epw_scf" ∨ n = "epw_nscf" ∨ n = "epw_wannier90_pp"
      ∨ n = "epw_pw2wannier90" ∨ n = "epw_interp") :
    statusOf o n = (findCase (epwChain o).1 n).map CaseRec.status
    ∧ noteOf o n =
      ((findCase (epwChain o).1 n).map CaseRec.note).getD "" := by
  have hhp : findCase (hpChain o).1 n = none := by
    refine findCase_eq_none ?_
    rw [(hpChain_spec o).1]
    rcases hn with rfl | rfl | rfl | rfl | rfl <;> decide
  have hneb : findCase (nebChain o).1 n = none := by
    refine findCase_eq_none ?_
    rw [nebChain_names]
    rcases hn with rfl | rfl | rfl | rfl | rfl <;> decide
  rw [statusOf, noteOf, findCase_run_adv, hhp, hneb, Option.none_or,
    Option.none_or]
  exact ⟨rfl, rfl⟩

/-- C1 (amended): in the HP and EPW mini-workflow chains, whenever a
prerequisite case's recorded status is FAIL every downstream case is
recorded FAIL with a note indicating a skip, the Step Executor is never
invoked for a skipped case, and every declared case of the chains produces
exactly one outcome record; when the chain's executables are present the
skip note names the immediate failed prerequisite, while in the
missing-executable branch it names the missing executables instead. -/
theorem C1_cascading_skips :
    ∀ o : AdvOracle,
      (∀ name ∈ ["hp_scf_hubbard", "hp_num_pert", "epw_scf", "epw_nscf",
          "epw_wannier90_pp", "epw_pw2wannier90", "epw_interp"],
        countCase (run_advanced_workflows o).1 name = 1)
      ∧ (statusOf o "hp_scf_hubbard" = some Status.FAIL →
          statusOf o "hp_num_pert" = some Status.FAIL
          ∧ strContains (noteOf o "hp_num_pert") "skipped" = true
          ∧ StepId.hpStep ∉ (run_advanced_workflows o).2)
      ∧ (o.hasExe "pw.x" = true → o.hasExe "hp.x" = true →
          statusOf o "hp_scf_hubbard" = some Status.FAIL →
          noteOf o "hp_num_pert" = "skipped (hp_scf_hubbard failed)")
      ∧ (∀ pr ∈ [("epw_scf", "epw_nscf", StepId.epwNscfStep),
          ("epw_nscf", "epw_wannier90_pp", StepId.epwW90Step),
          ("epw_wannier90_pp", "epw_pw2wannier90", StepId.epwPw2wanStep),
          ("epw_pw2wannier90", "epw_interp", StepId.epwInterpStep)],
        statusOf o pr.1 = some Status.FAIL →
          statusOf o pr.2.1 = some Status.FAIL
          ∧ strContains (noteOf o pr.2.1) "skipped" = true
          ∧ pr.2.2 ∉ (run_advanced_workflows o).2)
      ∧ (epwRequired.all o.hasExe = true →
          ∀ pr ∈ [("epw_scf", "epw_nscf"), ("epw_nscf", "epw_wannier90_pp"),
            ("epw_wannier90_pp", "epw_pw2wannier90"),
            ("epw_pw2wannier90", "epw_interp")],
          statusOf o pr.1 = some Status.FAIL →
            noteOf o pr.2 = "skipped (" ++ pr.1 ++ " failed)") := by
  intro o
  have hsplitInv : (run_advanced_workflows o).2 =
      (hpChain o).2 ++ (nebChain o).2 ++ (epwChain o).2 := rfl
  refine ⟨?_, ?_, ?_, ?_, ?_⟩
  · intro name hname
    rw [show (run_advanced_workflows o).1 =
      (hpChain o).1 ++ (nebChain o).1 ++ (epwChain o).1 from rfl,
      countCase_append, countCase_append, countCase_eq_names,
      countCase_eq_names, countCase_eq_names, (hpChain_spec o).1,
      nebChain_names, (epwChain_spec o).1]
    simp only [List.mem_cons, List.not_mem_nil, or_false] at hname
    rcases hname with rfl | rfl | rfl | rfl | rfl | rfl | rfl <;> decide
  · intro hfail
    have hs := statusOf_hp o (Or.inl rfl)
    have hs2 := statusOf_hp o (Or.inr rfl)
    rw [hs.1] at hfail
    obtain ⟨c1, c2, c3⟩ := (hpChain_spec o).2.1 hfail
    refine ⟨by rw [hs2.1]; exact c1, by rw [hs2.2]; exact c2, ?_⟩
    intro hmem
    rw [hsplitInv] at hmem
    rcases List.mem_append.mp hmem with hmem | hmem
    · rcases List.mem_append.mp hmem with hmem | hmem
      · exact c3 hmem
      · exact absurd (nebChain_steps o _ hmem) (by decide)
    · exact absurd (epwChain_steps o _ hmem) (by decide)
  · intro hpw hhp hfail
    have hs := statusOf_hp o (Or.inl rfl)
    have hs2 := statusOf_hp o (Or.inr rfl)
    rw [hs.1] at hfail
    rw [hs2.2]
    exact (hpChain_spec o).2.2 hpw hhp hfail
  · intro pr hpr
    simp only [List.mem_cons, List.not_mem_nil, or_false] at hpr
    rcases hpr with rfl | rfl | rfl | rfl
    · intro hfail
      have ha := @statusOf_epw o "epw_scf" (by simp)
      have hb := @statusOf_epw o "epw_nscf" (by simp)
      rw [ha.1] at hfail
      obtain ⟨c1, c2, c3⟩ := (epwChain_spec o).2.1
        ("epw_scf", "epw_nscf", StepId.epwNscfStep) (by simp) hfail
      refine ⟨by rw [hb.1]; exact c1, by rw [hb.2]; exact c2, ?_⟩
      intro hmem
      rw [hsplitInv] at hmem
      rcases List.mem_append.mp hmem with hmem | hmem
      · rcases List.mem_append.mp hmem with hmem | hmem
        · exact absurd (hpChain_steps o _ hmem) (by decide)
        · exact absurd (nebChain_steps o _ hmem) (by decide)
      · exact c3 hmem
    · intro hfail
      have ha := @statusOf_epw o "epw_nscf" (by simp)
      have hb := @statusOf_epw o "epw_wannier90_pp" (by simp)
      rw [ha.1] at hfail
      obtain ⟨c1, c2, c3⟩ := (epwChain_spec o).2.1
        ("epw_nscf", "epw_wannier90_pp", StepId.epwW90Step) (by simp) hfail
      refine ⟨by rw [hb.1]; exact c1, by rw [hb.2]; exact c2, ?_⟩
      intro hmem
      rw [hsplitInv] at hmem
      rcases List.mem_append.mp hmem with hmem | hmem
      · rcases List.mem_append.mp hmem with hmem | hmem
        · exact absurd (hpChain_steps o _ hmem) (by decide)
        · exact absurd (nebChain_steps o _ hmem) (by decide)
      · exact c3 hmem
    · intro hfail
      have ha := @statusOf_epw o "epw_wannier90_pp" (by simp)
      have hb := @statusOf_epw o "epw_pw2wannier90" (by simp)
      rw [ha.1] at hfail
      obtain ⟨c1, c2, c3⟩ := (epwChain_spec o).2.1
        ("epw_wannier90_pp", "epw_pw2wannier90", StepId.epwPw2wanStep)
        (by simp) hfail
      refine ⟨by rw [hb.1]; exact c1, by rw [hb.2]; exact c2, ?_⟩
      intro hmem
      rw [hsplitInv] at hmem
      rcases List.mem_append.mp hmem with hmem | hmem
      · rcases List.mem_append.mp hmem with hmem | hmem
        · exact absurd (hpChain_steps o _ hmem) (by decide)
        · exact absurd (nebChain_steps o _ hmem) (by decide)
      · exact c3 hmem
    · intro hfail
      have ha := @statusOf_epw o "epw_pw2wannier90" (by simp)
      have hb := @statusOf_epw o "epw_interp" (by simp)
      rw [ha.1] at hfail
      obtain ⟨c1, c2, c3⟩ := (epwChain_spec o).2.1
        ("epw_pw2wannier90", "epw_interp", StepId.epwInterpStep) (by simp)
        hfail
      refine ⟨by rw [hb.1]; exact c1, by rw [hb.2]; exact c2, ?_⟩
      intro hmem
      rw [hsplitInv] at hmem
      rcases List.mem_append.mp hmem with hmem | hmem
      · rcases List.mem_append.mp hmem with hmem | hmem
        · exact absurd (hpChain_steps o _ hmem) (by decide)
        · exact absurd (nebChain_steps o _ hmem) (by decide)
      · exact c3 hmem
  · intro hall pr hpr
    simp only [List.mem_cons, List.not_mem_nil, or_false] at hpr
    rcases hpr with rfl | rfl | rfl | rfl
    · intro hfail
      have ha := @statusOf_epw o "epw_scf" (by simp)
      have hb := @statusOf_epw o "epw_nscf" (by simp)
      rw [ha.1] at hfail
      rw [hb.2]
      exact (epwChain_spec o).2.2 hall ("epw_scf", "epw_nscf") (by simp) hfail
    · intro hfail
      have ha := @statusOf_epw o "epw_nscf" (by simp)
      have hb := @statusOf_epw o "epw_wannier90_pp" (by simp)
      rw [ha.1] at hfail
      rw [hb.2]
      exact (epwChain_spec o).2.2 hall ("epw_nscf", "epw_wannier90_pp")
        (by simp) hfail
    · intro hfail
      have ha := @statusOf_epw o "epw_wannier90_pp" (by simp)
      have hb := @statusOf_epw o "epw_pw2wannier90" (by simp)
      rw [ha.1] at hfail
      rw [hb.2]
      exact (epwChain_spec o).2.2 hall
        ("epw_wannier90_pp", "epw_pw2wannier90") (by simp) hfail
    · intro hfail
      have ha := @statusOf_epw o "epw_pw2wannier90" (by simp)
      have hb := @statusOf_epw o "epw_interp" (by simp)
      rw [ha.1] at hfail
      rw [hb.2]
      exact (epwChain_spec o).2.2 hall ("epw_pw2wannier90", "epw_interp")
        (by simp) hfail

/-- Oracle in which every executable is present, the HP SCF step fails with
exit status 1, and the remaining steps are immaterial. -/
def advOracleHpFail : AdvOracle :=
  ⟨fun _ => true, ⟨1, 0, ""⟩, ⟨0, 0, ""⟩, ⟨0, 0, ""⟩, none, ⟨0, 0, ""⟩,
    ⟨0, 0, ""⟩, ⟨0, 0, ""⟩, false, ⟨0, 0, ""⟩, ⟨0, 0, ""⟩⟩

/-- Witness for C1: with all executables present and the HP SCF step failing,
its dependent case records FAIL with the note naming the prerequisite. -/
theorem C1_cascading_skips_witness :
    statusOf advOracleHpFail "hp_num_pert" = some Status.FAIL
    ∧ noteOf advOracleHpFail "hp_num_pert" =
      "skipped (hp_scf_hubbard failed)" := by
  have h1 := ((C1_cascading_skips advOracleHpFail).2.1 (by rfl)).1
  have h2 := (C1_cascading_skips advOracleHpFail).2.2.1 rfl rfl (by rfl)
  exact ⟨h1, h2⟩

/-- Oracle in which no executable is present. -/
def advOracleMissing : AdvOracle :=
  ⟨fun _ => false, ⟨0, 0, ""⟩, ⟨0, 0, ""⟩, ⟨0, 0, ""⟩, none, ⟨0, 0, ""⟩,
    ⟨0, 0, ""⟩, ⟨0, 0, ""⟩, false, ⟨0, 0, ""⟩, ⟨0, 0, ""⟩⟩

/-- C1 counterexample: when pw.x/hp.x are missing, the prerequisite case
hp_scf_hubbard is recorded FAIL and the downstream hp_num_pert is recorded
FAIL with a skip note — but that note does not name the failed prerequisite
(it names the missing executables), refuting the claim as stated. -/
theorem C1_cascading_skips_counterexample :
    statusOf advOracleMissing "hp_scf_hubbard" = some Status.FAIL
    ∧ statusOf advOracleMissing "hp_num_pert" = some Status.FAIL
    ∧ noteOf advOracleMissing "hp_num_pert" = "skipped (missing pw.x/hp.x)"
    ∧ strContains (noteOf advOracleMissing "hp_num_pert") "hp_scf_hubbard"
      = false := by
  exact ⟨rfl, rfl, rfl, by decide⟩

/-- C2 (amended): PASS criteria by step family.  Solver steps judged via
log markers (core pipeline, serial q2r/matdyn, wrappers, HP and EPW steps)
are PASS iff exit 0 and the marker holds (wannier90 -pp substitutes the
.nnkp file's existence for the marker); NEB is PASS iff the marker holds
and the exit status is 0 or 1; a sweep iteration additionally requires the
log to parse (so PASS still implies exit 0 and marker present); a module
launch check is judged by the banner text alone, independent of the exit
status; a plot step is judged by exit 0 alone with no marker. -/
theorem C2_pass_criteria :
    (∀ (rc : Int) (logText : String),
      pipelineStatus rc logText = Status.PASS ↔
        rc = 0 ∧ hasJobDone logText = true)
    ∧ (∀ (rc : Int) (logText : String),
      nebStatus rc logText = Status.PASS ↔
        hasJobDone logText = true ∧ (rc = 0 ∨ rc = 1))
    ∧ (∀ (rc : Int) (nnkp : Bool),
      w90ppStatus rc nnkp = Status.PASS ↔ rc = 0 ∧ nnkp = true)
    ∧ (∀ (rc : Int) (logText : String),
      epwInterpStatus rc logText = Status.PASS ↔
        rc = 0 ∧ hasEpwInterpolationMarker logText = true)
    ∧ (∀ (floatVal : List Char → Except String ℚ)
        (caseLabel runLabel : String) (rankCount : ℕ) (er : ExecRes),
      (sweepIter floatVal caseLabel rankCount runLabel er).1.status =
          Status.PASS ↔
        er.rc = 0 ∧ hasJobDone er.log = true ∧
          ∃ v, parseScfLog floatVal er.log = Except.ok v)
    ∧ (∀ (module : String) (rc rc2 : Int) (dur dur2 : ℚ) (logText : String),
      ((moduleCase module rc dur logText).status = Status.PASS ↔
        strContains logText "Program" = true ∧
          strContains logText "starts" = true)
      ∧ (moduleCase module rc dur logText).status =
          (moduleCase module rc2 dur2 logText).status)
    ∧ (∀ rc : Int, plotStepStatus rc = Status.PASS ↔ rc = 0) := by
  refine ⟨?_, ?_, ?_, ?_, ?_, ?_, ?_⟩
  · intro rc logText
    unfold pipelineStatus
    split <;> simp_all
  · intro rc logText
    unfold nebStatus
    split <;> simp_all
  · intro rc nnkp
    unfold w90ppStatus
    split <;> simp_all
  · intro rc logText
    unfold epwInterpStatus
    split <;> simp_all
  · intro floatVal caseLabel runLabel rankCount er
    unfold sweepIter
    split
    · rename_i hcond
      simp only []
      constructor
      · intro h
        exact absurd h (by simp)
      · rintro ⟨h1, h2, -⟩
        exfalso
        rcases hcond with h | h <;> simp_all
    · rename_i hcond
      push_neg at hcond
      split
      · rename_i msg heq
        simp only []
        constructor
        · intro h
          exact absurd h (by simp)
        · rintro ⟨-, -, v, hv⟩
          rw [heq] at hv
          cases hv
      · rename_i en fe heq
        have hjd : hasJobDone er.log = true := by
          rcases Bool.eq_false_or_eq_true (hasJobDone er.log) with ht | hf
          · exact ht
          · exact absurd hf hcond.2
        exact ⟨fun h => ⟨hcond.1, hjd, (en, fe), heq⟩, fun h => rfl⟩
  · intro module rc rc2 dur dur2 logText
    refine ⟨?_, rfl⟩
    show moduleLaunchStatus logText = Status.PASS ↔ _
    unfold moduleLaunchStatus
    split <;> simp_all
  · intro rc
    unfold plotStepStatus
    split <;> simp_all

/-- C2 counterexample: a module launch check whose program printed its
banner but exited with status 1 is recorded PASS even though the exit
status is outside the accepted set {0} (and the step is not the NEB step),
refuting the claim that PASS always requires an accepted exit status. -/
theorem C2_pass_criteria_counterexample :
    (moduleCase "cp.x" 1 1 "Program CP v.7.5 starts on host").status =
      Status.PASS
    ∧ (1 : Int) ≠ 0 := by
  exact ⟨rfl, by decide⟩

/-- Exit status and elapsed duration returned by one `run_command` call. -/
structure RunRes where
  rc : Int
  dur : ℚ
deriving DecidableEq

/-- `run_mpi_qe`: runs the parallel launch (outcome `primary`, leaving log
text `logAfterPrimary`), and iff the primary failed with a recognized
transport error re-executes serially (outcome `fallback`), returning the
fallback's exit status with the summed duration.  The second component
records whether the serial fallback was invoked. -/
def run_mpi_qe (primary : RunRes) (logAfterPrimary : String) (fallback : RunRes) :
    RunRes × Bool :=
  if primary.rc = 0 then (primary, false)
  else if has_mpi_socket_error logAfterPrimary then
    (⟨fallback.rc, primary.dur + fallback.dur⟩, true)
  else (primary, false)

/-- Exit of `campaign` after all cases are recorded: 0 when no recorded case
failed, 1 otherwise (`return 0 if fail_count == 0 else 1`). -/
def campaignExit (cases : List CaseRec) : ℕ :=
  let passCount := cases.countP (fun c => c.status == Status.PASS)
  let failCount := cases.length - passCount
  if failCount = 0 then 0 else 1

/-- One external invocation as `run_command` observes it: either
`subprocess.run` returned (exit status, elapsed duration, log written), or
it exceeded `timeout_s` and raised `TimeoutExpired` — `check=False` only
suppresses `CalledProcessError`, not the timeout exception. -/
inductive StepExec where
  | ran : Int → ℚ → String → StepExec
  | timeout : StepExec

/-- The campaign's step loop over its declared case names: a step whose
invocation returns is recorded with the marker-based status, but a raised
`TimeoutExpired` is caught nowhere inside `campaign`, so the loop aborts
with the exception escaping and the cases recorded before it never
reported (the in-memory list becomes unreachable, which the error result
models by dropping it). -/
def runCampaignSteps (exec : String → StepExec) (noteFor : String → String) :
    List String → Except String (List CaseRec)
  | [] => .ok []
  | name :: rest =>
    match exec name with
    | .timeout => .error "subprocess.TimeoutExpired"
    | .ran rc dur log =>
      match runCampaignSteps exec noteFor rest with
      | .error e => .error e
      | .ok recs =>
        .ok (⟨name, pipelineStatus rc log, dur, noteFor name⟩ :: recs)

/-- `campaign`: `detect_qe_bin` raises when no directory holding both pw.x
and ph.x is found; otherwise the step loop runs and any exception it raises
(such as a step timeout) propagates out of `campaign` unhandled. -/
def campaignRun (binFound : Bool) (exec : String → StepExec)
    (noteFor : String → String) (steps : List String) :
    Except String (List CaseRec) :=
  if binFound then runCampaignSteps exec noteFor steps
  else .error "Could not find a QE bin directory with pw.x and ph.x."

/-- `main`: returns the campaign's 0/1 value when it runs to completion and
maps any escaped exception — a startup failure or a mid-campaign one such
as a step timeout — to exit 2 via its `except Exception` handler. -/
def mainExit (binFound : Bool) (exec : String → StepExec)
    (noteFor : String → String) (steps : List String) : ℕ :=
  match campaignRun binFound exec noteFor steps with
  | .ok cs => campaignExit cs
  | .error _ => 2

/-- A step oracle under which pw_scf completes successfully (exit 0 in 5 s
with the completion marker) and every other step's invocation times out. -/
def timeoutExec : String → StepExec := fun name =>
  if name = "pw_scf" then .ran 0 5 "JOB DONE." else .timeout

/-- The pipeline steps' note text (`ranks=4` for the default rank count). -/
def pipelineNote : String → String := fun _ => "ranks=4"

/-- C3: for a parallel-launched step whose primary invocation returns a
nonzero exit status, the serial fallback re-execution happens iff the captured
log contains one of the fixed transport-failure markers; when the fallback
runs the returned duration is the sum of both attempts and the returned exit
status is the fallback's; when no marker is present the primary failure is
returned unchanged with no retry. -/
theorem C3_serial_fallback (primary : RunRes) (logAfterPrimary : String)
    (fallback : RunRes) (h : primary.rc ≠ 0) :
    ((run_mpi_qe primary logAfterPrimary fallback).2 = true ↔
      has_mpi_socket_error logAfterPrimary = true)
    ∧ (has_mpi_socket_error logAfterPrimary = true →
        (run_mpi_qe primary logAfterPrimary fallback).1 =
          ⟨fallback.rc, primary.dur + fallback.dur⟩)
    ∧ (has_mpi_socket_error logAfterPrimary = false →
        run_mpi_qe primary logAfterPrimary fallback = (primary, false)) := by
  by_cases hm : has_mpi_socket_error logAfterPrimary = true <;>
    simp_all [run_mpi_qe, if_neg h]

/-- Witness for C3: a primary failure (exit 1, 5 s) whose log carries the
"PRTE ERROR" transport marker is retried serially (exit 0, 7 s), and the
returned outcome is the fallback exit status with the summed 12 s duration. -/
theorem C3_serial_fallback_witness :
    (run_mpi_qe ⟨1, 5⟩ "x PRTE ERROR y" ⟨0, 7⟩).1 = ⟨0, 12⟩ := by
  have h := (C3_serial_fallback ⟨1, 5⟩ "x PRTE ERROR y" ⟨0, 7⟩ (by decide)).2.1
    (by decide)
  rw [h]
  norm_num

/-- C4: the recorded-cases part of the claim is faithful to the code — a
completed campaign exits 0 iff every recorded case passed, 1 iff any
failed, and a missing QE bin exits 2 — but the code diverges from the
claimed containment: a step whose `subprocess.run` raises `TimeoutExpired`
(not suppressed by `check=False` and caught nowhere inside `campaign`)
escapes the campaign boundary to `main` and the process exits 2 mid-run.
At the failing input below the campaign had started, its one completed
step had passed (exit 0 alone), yet the exit status is the
could-not-start value 2 — contradicting the claim and the spec's stated
intent that a timeout is marked FAIL with the campaign continuing. -/
theorem C4_timeout_divergence :
    (∀ cs : List CaseRec,
      (campaignExit cs = 0 ↔ ∀ c ∈ cs, c.status = Status.PASS)
      ∧ (campaignExit cs = 1 ↔ ∃ c ∈ cs, c.status = Status.FAIL))
    ∧ (∀ (exec : String → StepExec) (noteFor : String → String)
        (steps : List String), mainExit false exec noteFor steps = 2)
    ∧ runCampaignSteps timeoutExec pipelineNote ["pw_scf"] =
        Except.ok [⟨"pw_scf", Status.PASS, 5, "ranks=4"⟩]
    ∧ mainExit true timeoutExec pipelineNote ["pw_scf"] = 0
    ∧ campaignRun true timeoutExec pipelineNote ["pw_scf", "pw_bands"] =
        Except.error "subprocess.TimeoutExpired"
    ∧ mainExit true timeoutExec pipelineNote ["pw_scf", "pw_bands"] = 2 := by
  refine ⟨?_, fun exec noteFor steps => rfl, rfl, rfl, rfl, rfl⟩
  intro cases
  have hle : cases.countP (fun c => c.status == Status.PASS) ≤ cases.length :=
    List.countP_le_length _
  have hall : cases.countP (fun c => c.status == Status.PASS) = cases.length ↔
      ∀ c ∈ cases, c.status = Status.PASS := by
    rw [List.countP_eq_length]
    constructor
    · intro h c hc
      simpa using h c hc
    · intro h c hc
      simp [h c hc]
  have hfail : (¬ ∀ c ∈ cases, c.status = Status.PASS) ↔
      ∃ c ∈ cases, c.status = Status.FAIL := by
    constructor
    · intro h
      push_neg at h
      obtain ⟨c, hc, hne⟩ := h
      exact ⟨c, hc, by cases hcs : c.status <;> simp_all⟩
    · intro ⟨c, hc, hcs⟩ hall'
      have := hall' c hc
      simp [hcs] at this
  have hce : campaignExit cases =
      if cases.length - cases.countP (fun c => c.status == Status.PASS) = 0
      then 0 else 1 := rfl
  by_cases hz :
      cases.length - cases.countP (fun c => c.status == Status.PASS) = 0
  · have hp : ∀ c ∈ cases, c.status = Status.PASS := hall.mp (by omega)
    have hnf : ¬ ∃ c ∈ cases, c.status = Status.FAIL := by
      rintro ⟨c, hc, hcs⟩
      have hps := hp c hc
      rw [hps] at hcs
      exact Status.noConfusion hcs
    rw [hce, if_pos hz]
    exact ⟨by simpa using hp, by simp [hnf]⟩
  · have hnall : ¬ ∀ c ∈ cases, c.status = Status.PASS := by
      intro hco
      exact hz (by have := hall.mpr hco; omega)
    have hf : ∃ c ∈ cases, c.status = Status.FAIL := hfail.mp hnall
    rw [hce, if_neg hz]
    exact ⟨by simp [hnall], by simp [hf]⟩

end QEValidate
